import Mathlib

/-!
Verification development for the weibo-check repository.

The embedding below models the response-repair and parsing pipeline of
`src/analyze_trends.py` (class `TrendAnalyzer`), the configuration
environment-override logic of `src/config_loader.py`, and the data-file
selection of `TrendAnalyzer.get_latest_data_file`, as pure Lean functions
over `List Char` / `String`.

Modelling notes:
* `json.loads` (Python standard library, an external collaborator of the
  repository) is modelled by `jsonLoads` below on the JSON subset the
  program exchanges: objects, arrays, strings with the standard
  single-character escapes, integer numbers, `true`/`false`/`null`.
  Floating-point literals and `\uXXXX` escapes are outside the modelled
  subset (the parser rejects them, so universally quantified theorems
  hypothesise membership in the subset via `jsonLoads … = some v`).
  Python dicts are modelled as key/value lists in parse order; duplicate
  keys resolve to the last occurrence on lookup, as in Python.
* Python `str.strip()` is modelled over the ASCII whitespace characters
  (space, tab, newline, carriage return, vertical tab, form feed);
  non-ASCII Unicode whitespace is not modelled.  Likewise regex `\s` is
  modelled by the same ASCII set, and `str.isdigit` by ASCII digits.
* `re.sub` is modelled by a left-to-right scan that replaces each
  non-overlapping leftmost match and resumes after the matched span,
  which is exactly CPython's behaviour for the patterns used here (none
  of them can match the empty string).
-/

/-- JSON whitespace as skipped by Python's `json` module: space, tab,
linefeed, carriage return (the `WHITESPACE` regex of `json.decoder`). -/
def isJsonWs (c : Char) : Bool :=
  c = ' ' || c = '\t' || c = '\n' || c = '\r'

/-- Whitespace removed by Python `str.strip()` (ASCII part): the JSON
whitespace plus vertical tab and form feed. -/
def isPyWs (c : Char) : Bool :=
  c = ' ' || c = '\t' || c = '\n' || c = '\r' || c = '\x0b' || c = '\x0c'

/-- Whitespace matched by regex `\s` (ASCII part), same set as `isPyWs`. -/
def isReWs (c : Char) : Bool :=
  c = ' ' || c = '\t' || c = '\n' || c = '\r' || c = '\x0b' || c = '\x0c'

/-- Trim characters satisfying `p` from both ends of a list. -/
def trimBoth (p : Char → Bool) (cs : List Char) : List Char :=
  ((cs.dropWhile p).reverse.dropWhile p).reverse

/-- Python `str.strip()` on a character list. -/
def pyStrip (cs : List Char) : List Char :=
  trimBoth isPyWs cs

/-- Trim JSON whitespace from both ends (used to state `jsonLoads`). -/
def jsonTrim (cs : List Char) : List Char :=
  trimBoth isJsonWs cs

/-- Structured JSON values as produced by `json.loads` on the modelled
subset.  Objects are key/value lists in parse order. -/
inductive Json where
  | null
  | bool (b : Bool)
  | num (n : Int)
  | str (s : String)
  | arr (xs : List Json)
  | obj (kvs : List (String × Json))

/-- Decode one escape character after a backslash inside a JSON string
(`json.decoder.BACKSLASH`); `\uXXXX` is outside the modelled subset. -/
def escChar : Char → Option Char
  | '"' => some '"'
  | '\\' => some '\\'
  | '/' => some '/'
  | 'b' => some '\x08'
  | 'f' => some '\x0c'
  | 'n' => some '\n'
  | 'r' => some '\r'
  | 't' => some '\t'
  | _ => none

/-- Parse the body of a JSON string literal (after the opening quote),
returning the decoded content and the remainder after the closing quote.
Raw control characters below U+0020 are rejected (strict mode). -/
def parseStrBody : List Char → Option (List Char × List Char)
  | [] => none
  | '"' :: rest => some ([], rest)
  | '\\' :: e :: rest =>
    match escChar e with
    | some c =>
      match parseStrBody rest with
      | some (s, r) => some (c :: s, r)
      | none => none
    | none => none
  | c :: rest =>
    if c.toNat < 0x20 then none
    else
      match parseStrBody rest with
      | some (s, r) => some (c :: s, r)
      | none => none

/-- ASCII decimal digit test. -/
def isDig (c : Char) : Bool := '0' ≤ c && c ≤ '9'

/-- Numeric value of a list of ASCII digits. -/
def digitsVal (ds : List Char) : Nat :=
  ds.foldl (fun n c => n * 10 + (c.toNat - 48)) 0

/-- Parse an unsigned JSON integer: `0` not followed by a digit, or a
nonzero digit followed by digits.  A following `.`, `e` or `E` would make
a float, which is outside the modelled subset, so the digits are simply
consumed and any such continuation makes the surrounding parse fail. -/
def parseNat : List Char → Option (Nat × List Char)
  | '0' :: rest =>
    match rest with
    | c :: _ => if isDig c then none else some (0, rest)
    | [] => some (0, [])
  | c :: rest =>
    if isDig c && c ≠ '0' then
      some (digitsVal (c :: rest.takeWhile isDig), rest.dropWhile isDig)
    else none
  | [] => none

mutual

/-- Parse one JSON value from the head of the input (no leading
whitespace), following `json.decoder.JSONDecoder`: returns the value and
the unconsumed remainder. -/
def parseVal : Nat → List Char → Option (Json × List Char)
  | 0, _ => none
  | fuel+1, cs =>
    match cs with
    | '{' :: rest =>
      match rest.dropWhile isJsonWs with
      | '}' :: r2 => some (.obj [], r2)
      | r => match parseMembers fuel r with
             | some (kvs, r2) => some (.obj kvs, r2)
             | none => none
    | '[' :: rest =>
      match rest.dropWhile isJsonWs with
      | ']' :: r2 => some (.arr [], r2)
      | r => match parseItems fuel r with
             | some (vs, r2) => some (.arr vs, r2)
             | none => none
    | '"' :: rest =>
      match parseStrBody rest with
      | some (s, r) => some (.str ⟨s⟩, r)
      | none => none
    | 't' :: 'r' :: 'u' :: 'e' :: r => some (.bool true, r)
    | 'f' :: 'a' :: 'l' :: 's' :: 'e' :: r => some (.bool false, r)
    | 'n' :: 'u' :: 'l' :: 'l' :: r => some (.null, r)
    | '-' :: rest =>
      match parseNat rest with
      | some (n, r) => some (.num (-(n : Int)), r)
      | none => none
    | _ =>
      match parseNat cs with
      | some (n, r) => some (.num (n : Int), r)
      | none => none

/-- Parse the items of a nonempty JSON array, positioned at the first
item (whitespace already skipped); consumes through the closing `]`. -/
def parseItems : Nat → List Char → Option (List Json × List Char)
  | 0, _ => none
  | fuel+1, cs =>
    match parseVal fuel cs with
    | none => none
    | some (v, r) =>
      match r.dropWhile isJsonWs with
      | ',' :: r2 =>
        match parseItems fuel (r2.dropWhile isJsonWs) with
        | some (vs, r3) => some (v :: vs, r3)
        | none => none
      | ']' :: r2 => some ([v], r2)
      | _ => none

/-- Parse the members of a nonempty JSON object, positioned at the first
key (whitespace already skipped); consumes through the closing `}`. -/
def parseMembers : Nat → List Char → Option (List (String × Json) × List Char)
  | 0, _ => none
  | fuel+1, cs =>
    match cs with
    | '"' :: rest =>
      match parseStrBody rest with
      | some (k, r) =>
        match r.dropWhile isJsonWs with
        | ':' :: r2 =>
          match parseVal fuel (r2.dropWhile isJsonWs) with
          | some (v, r3) =>
            match r3.dropWhile isJsonWs with
            | ',' :: r4 =>
              match parseMembers fuel (r4.dropWhile isJsonWs) with
              | some (kvs, r5) => some ((⟨k⟩, v) :: kvs, r5)
              | none => none
            | '}' :: r4 => some ([(⟨k⟩, v)], r4)
            | _ => none
          | none => none
        | _ => none
      | none => none
    | _ => none

end

/-- Model of Python `json.loads` on the modelled subset: skip surrounding
JSON whitespace, parse exactly one value covering the whole remainder. -/
def jsonLoadsL (cs : List Char) : Option Json :=
  match parseVal ((jsonTrim cs).length + 2) (jsonTrim cs) with
  | some (v, []) => some v
  | _ => none

/-- Python json.loads on a String value. -/
def jsonLoads (s : String) : Option Json :=
  jsonLoadsL s.data

/-- Character class of the lookahead `(?=[a-zA-Z_一-鿿])` used by
several repair rules in `TrendAnalyzer._fix_json`. -/
def isKeyStart (c : Char) : Bool :=
  ('a' ≤ c && c ≤ 'z') || ('A' ≤ c && c ≤ 'Z') || c = '_' ||
    (0x4e00 ≤ c.toNat && c.toNat ≤ 0x9fff)

/-- Generic model of `re.sub` for patterns that always consume at least
one character: scan left to right; at a match emit the replacement and
resume after the matched span, otherwise keep the character. -/
def rewriteAll (rule : List Char → Option (List Char × List Char)) :
    Nat → List Char → List Char
  | 0, cs => cs
  | _, [] => []
  | f+1, c :: cs =>
    match rule (c :: cs) with
    | some (rep, rest) => rep ++ rewriteAll rule f rest
    | none => c :: rewriteAll rule f cs

/-- Run one substitution rule over a whole string. -/
def applyRule (rule : List Char → Option (List Char × List Char))
    (cs : List Char) : List Char :=
  rewriteAll rule cs.length cs

/-- Rule (a) `\}\s*\{` → `},{`. -/
def mRuleA : List Char → Option (List Char × List Char)
  | '}' :: cs =>
    match cs.dropWhile isReWs with
    | '{' :: r => some ("\x7d,\x7b".data, r)
    | _ => none
  | _ => none

/-- Rule (b) `\]\s*\[` → `],[`. -/
def mRuleB : List Char → Option (List Char × List Char)
  | ']' :: cs =>
    match cs.dropWhile isReWs with
    | '[' :: r => some ("],[".data, r)
    | _ => none
  | _ => none

/-- Rule (c) `\}\s*"(?=[a-zA-Z_一-鿿])` → `},"`. -/
def mRuleC : List Char → Option (List Char × List Char)
  | '}' :: cs =>
    match cs.dropWhile isReWs with
    | '"' :: c :: r => if isKeyStart c then some ("\x7d,\"".data, c :: r) else none
    | _ => none
  | _ => none

/-- Rule (d) `\]\s*"(?=[a-zA-Z_一-鿿])` → `],"`. -/
def mRuleD : List Char → Option (List Char × List Char)
  | ']' :: cs =>
    match cs.dropWhile isReWs with
    | '"' :: c :: r => if isKeyStart c then some ("],\"".data, c :: r) else none
    | _ => none
  | _ => none

/-- Rule (e) `"\s*"(?=[a-zA-Z_一-鿿])` → `","`. -/
def mRuleE : List Char → Option (List Char × List Char)
  | '"' :: cs =>
    match cs.dropWhile isReWs with
    | '"' :: c :: r => if isKeyStart c then some ("\",\"".data, c :: r) else none
    | _ => none
  | _ => none

/-- Rule (f) `"\s+\"` → `","` (at least one whitespace, no lookahead). -/
def mRuleF : List Char → Option (List Char × List Char)
  | '"' :: c :: cs =>
    if isReWs c then
      match (c :: cs).dropWhile isReWs with
      | '"' :: r => some ("\",\"".data, r)
      | _ => none
    else none
  | _ => none

/-- Rule (g) `(\d)\s*"(?=[a-zA-Z_一-鿿])` → `\1,"`. -/
def mRuleG : List Char → Option (List Char × List Char)
  | d :: cs =>
    if isDig d then
      match cs.dropWhile isReWs with
      | '"' :: c :: r => if isKeyStart c then some ([d, ',', '"'], c :: r) else none
      | _ => none
    else none
  | _ => none

/-- Rule (h) `(\d)\s*\{` → `\1,{`. -/
def mRuleH : List Char → Option (List Char × List Char)
  | d :: cs =>
    if isDig d then
      match cs.dropWhile isReWs with
      | '{' :: r => some ([d, ',', '{'], r)
      | _ => none
    else none
  | _ => none

/-- Match a literal `true`/`false`/`null` token at the head. -/
def litAt : List Char → Option (List Char × List Char)
  | 't' :: 'r' :: 'u' :: 'e' :: r => some ("true".data, r)
  | 'f' :: 'a' :: 'l' :: 's' :: 'e' :: r => some ("false".data, r)
  | 'n' :: 'u' :: 'l' :: 'l' :: r => some ("null".data, r)
  | _ => none

/-- Rule (i) `(true|false|null)\s*"` → `\1,"` (no lookahead). -/
def mRuleI (cs : List Char) : Option (List Char × List Char) :=
  match litAt cs with
  | some (lit, rest) =>
    match rest.dropWhile isReWs with
    | '"' :: r => some (lit ++ [',', '"'], r)
    | _ => none
  | none => none

/-- Rule (j) `(true|false|null)\s*\{` → `\1,{`. -/
def mRuleJ (cs : List Char) : Option (List Char × List Char) :=
  match litAt cs with
  | some (lit, rest) =>
    match rest.dropWhile isReWs with
    | '{' :: r => some (lit ++ [',', '{'], r)
    | _ => none
  | none => none

/-- Rule (k1) `,\s*\]` → `]`. -/
def mRuleK1 : List Char → Option (List Char × List Char)
  | ',' :: cs =>
    match cs.dropWhile isReWs with
    | ']' :: r => some ([']'], r)
    | _ => none
  | _ => none

/-- Rule (k2) `,\s*\}` → `}`. -/
def mRuleK2 : List Char → Option (List Char × List Char)
  | ',' :: cs =>
    match cs.dropWhile isReWs with
    | '}' :: r => some (['}'], r)
    | _ => none
  | _ => none

/-- Rule (l) `,\s*,+` → `,` (greedy run of trailing commas). -/
def mRuleL : List Char → Option (List Char × List Char)
  | ',' :: cs =>
    match cs.dropWhile isReWs with
    | ',' :: r => some ([','], r.dropWhile (· = ','))
    | _ => none
  | _ => none

/-- Rule (m1) `\{\s*,` → `{`. -/
def mRuleM1 : List Char → Option (List Char × List Char)
  | '{' :: cs =>
    match cs.dropWhile isReWs with
    | ',' :: r => some (['{'], r)
    | _ => none
  | _ => none

/-- Rule (m2) `\[\s*,` → `[`. -/
def mRuleM2 : List Char → Option (List Char × List Char)
  | '[' :: cs =>
    match cs.dropWhile isReWs with
    | ',' :: r => some (['['], r)
    | _ => none
  | _ => none

/-- Model of `TrendAnalyzer._fix_json`: strip, remove leading BOM characters, then
apply the fifteen substitutions in source order. -/
def fixJsonL (cs : List Char) : List Char :=
  let s0 := (pyStrip cs).dropWhile (· = '﻿')
  let s1 := applyRule mRuleA s0
  let s2 := applyRule mRuleB s1
  let s3 := applyRule mRuleC s2
  let s4 := applyRule mRuleD s3
  let s5 := applyRule mRuleE s4
  let s6 := applyRule mRuleF s5
  let s7 := applyRule mRuleG s6
  let s8 := applyRule mRuleH s7
  let s9 := applyRule mRuleI s8
  let s10 := applyRule mRuleJ s9
  let s11 := applyRule mRuleK1 s10
  let s12 := applyRule mRuleK2 s11
  let s13 := applyRule mRuleL s12
  let s14 := applyRule mRuleM1 s13
  applyRule mRuleM2 s14

/-- Repair rule chain `_fix_json` on a `String` value. -/
def fixJson (s : String) : String := ⟨fixJsonL s.data⟩

/-- Model of `re.search(r'\[[\s\S]*\]', text)`: the span from the first `[` to the
last `]`, when a `]` occurs after the first `[`. -/
def extractArr (cs : List Char) : Option (List Char) :=
  if (cs.dropWhile (· != '[')).isEmpty then none
  else if ((cs.dropWhile (· != '[')).reverse.dropWhile (· != ']')).isEmpty then none
  else some ((cs.dropWhile (· != '[')).reverse.dropWhile (· != ']')).reverse

/-- The leading fence removal of `analyze_topics`: drop a `‌```json`
marker, else a bare `‌```` marker, from the front. -/
def dropFenceStart : List Char → List Char
  | '`' :: '`' :: '`' :: 'j' :: 's' :: 'o' :: 'n' :: rest => rest
  | '`' :: '`' :: '`' :: rest => rest
  | cs => cs

/-- Drop a trailing `‌```` marker, as `response_text[:-3]`. -/
def dropFenceEnd (cs : List Char) : List Char :=
  match cs.reverse with
  | '`' :: '`' :: '`' :: restR => restR.reverse
  | _ => cs

/-- Lines 107–114 of `analyze_trends.py`: strip, remove markdown fence
markers, strip again. -/
def fenceStrip (cs : List Char) : List Char :=
  pyStrip (dropFenceEnd (dropFenceStart (pyStrip cs)))

/-- The only failure the Normalizer raises: a structural parse failure
(`json.JSONDecodeError`). -/
inductive PErr where
  | parseFail
  deriving DecidableEq

/-- Outcome of the Normalizer: the returned value or propagated error,
the stage that decided the outcome (1 strict parse, 2 extracted-span
parse, 3 repair of the extracted span, 4 repair of the stripped text),
and the contents of the debug artifacts written along the way. -/
structure NormResult where
  result : Except PErr Json
  stage : Nat
  debugWrites : List (List Char)

def dbgHdr : List Char := "=== 原始响应 ===\n".data
def dbgExHdr : List Char := "\n\n=== 提取的 JSON ===\n".data
def dbgFxHdr : List Char := "\n\n=== 修复后的 JSON ===\n".data
def dbgFxHdr2 : List Char := "\n\n=== 修复后的文本 ===\n".data

/-- The parse-and-repair path of `TrendAnalyzer.analyze_topics`
(lines 106–171): fence-strip, strict parse, array extraction, rule-based
repair, debug-artifact persistence on failure. -/
def analyzeResponseL (raw : List Char) : NormResult :=
  match jsonLoadsL (fenceStrip raw) with
  | some v => ⟨.ok v, 1, []⟩
  | none =>
    match extractArr (fenceStrip raw) with
    | some ex =>
      match jsonLoadsL ex with
      | some v => ⟨.ok v, 2, []⟩
      | none =>
        match jsonLoadsL (fixJsonL ex) with
        | some v => ⟨.ok v, 3, []⟩
        | none =>
          ⟨.error .parseFail, 3,
           [dbgHdr ++ fenceStrip raw ++ dbgExHdr ++ ex ++ dbgFxHdr ++ fixJsonL ex]⟩
    | none =>
      match jsonLoadsL (fixJsonL (fenceStrip raw)) with
      | some v => ⟨.ok v, 4, []⟩
      | none =>
        ⟨.error .parseFail, 4,
         [dbgHdr ++ fenceStrip raw ++ dbgFxHdr2 ++ fixJsonL (fenceStrip raw)]⟩

/-- The Normalizer on a `String` input. -/
def analyzeResponse (raw : String) : NormResult := analyzeResponseL raw.data

/-- One raw hot-search topic as consumed from the data file (the fields
the analysis pipeline reads). -/
structure RawTopic where
  rank : Int
  title : String
  deriving DecidableEq

/-- Content of one raw-data file (the `topics` field read by
`analyze_topics`). -/
structure TopicData where
  topics : List RawTopic

/-- The topics embedded in the prompt: `data['topics'][:topic_count]`
(line 61 of `analyze_trends.py`). -/
def promptTopics (data : TopicData) (topicCount : Nat) : List RawTopic :=
  data.topics.take topicCount

/-- Model of `TrendAnalyzer.analyze_topics`: read the topics, truncate to
the configured count (which only shapes the prompt), send the prompt, and
normalise the completion response.  The response text is an input because
the completion endpoint is an external collaborator. -/
def analyzeTopicsModel (data : TopicData) (topicCount : Nat)
    (response : String) : NormResult :=
  analyzeResponseL response.data

/-- Python dict lookup on a key/value list in insertion order: the last
binding of the key wins. -/
def lookupField (kvs : List (String × Json)) (k : String) : Option Json :=
  ((kvs.filter (fun kv => kv.1 == k)).getLast?).map (fun kv => kv.2)

/-- The `rank` field of one result entry, when it is an integer. -/
def entryRank (e : Json) : Option Int :=
  match e with
  | .obj kvs =>
    match lookupField kvs "rank" with
    | some (.num n) => some n
    | _ => none
  | _ => none

/-- Ranks carried by a parsed result array. -/
def resultRanks (v : Json) : List Int :=
  match v with
  | .arr xs => xs.filterMap entryRank
  | _ => []

/-- Number of entries of a parsed result array. -/
def resultLen (v : Json) : Nat :=
  match v with
  | .arr xs => xs.length
  | _ => 0

/-- Grade thresholds from the `grades` configuration section. -/
structure GradeThresholds where
  excellent : Int
  good : Int
  deriving DecidableEq

/-- One analysis entry as consumed by `generate_html_report`; only the
`total_score` field matters for the counters, and it may be absent. -/
structure AnalysisEntry where
  total_score : Option Int
  deriving DecidableEq

/-- Python `a.get('total_score', 0)`. -/
def entryScore (a : AnalysisEntry) : Int := a.total_score.getD 0

/-- Line 226: `sum(1 for a in analysis if a.get('total_score', 0) >= grades['excellent'])`. -/
def excellentCount (gs : GradeThresholds) (analysis : List AnalysisEntry) : Nat :=
  (analysis.filter (fun a => gs.excellent ≤ entryScore a)).length

/-- Line 227: count of entries with score in `[good, excellent)`. -/
def goodCount (gs : GradeThresholds) (analysis : List AnalysisEntry) : Nat :=
  (analysis.filter
    (fun a => gs.good ≤ entryScore a && entryScore a < gs.excellent)).length

/-- Line 228: `average = len(analysis) - excellent - good` (Python integer
arithmetic, so stated over `Int`). -/
def averageCount (gs : GradeThresholds) (analysis : List AnalysisEntry) : Int :=
  (analysis.length : Int) - excellentCount gs analysis - goodCount gs analysis

/-- Model of Python `str.isdigit` restricted to ASCII input: nonempty and
every character a decimal digit. -/
def pyIsdigit (s : String) : Bool :=
  !s.data.isEmpty && s.data.all isDig

/-- The configuration fields the override logic touches. -/
structure Config where
  topicCount : Nat
  dataDir : String
  deriving DecidableEq

/-- Lines 154–157 of `config_loader.py`: the `WEIBO_SKILL_TOPIC_COUNT`
override — `if topic_count and topic_count.isdigit(): config[...] =
int(topic_count)`.  (`env = none` models an unset variable; Python's
truthiness test on the string is subsumed by `isdigit`, which is false on
the empty string.) -/
def loadEnvTopicCount (env : Option String) (config : Config) : Config :=
  match env with
  | some tc =>
    if !tc.data.isEmpty && pyIsdigit tc then
      { config with topicCount := digitsVal tc.data }
    else config
  | none => config

/-- Does a filename match the glob pattern `{source}_raw_*.json`?  The
`*` matches any (possibly empty) run of characters of a single path
component. -/
def matchesRawPattern (source : String) (f : String) : Bool :=
  (source.data ++ "_raw_".data).isPrefixOf f.data &&
    (".json".data.reverse).isPrefixOf f.data.reverse &&
    source.data.length + 10 ≤ f.data.length &&
    !f.data.contains '/'

/-- Lexicographic (code-point) strict order on character lists — the
order Python uses to compare the path strings being sorted. -/
def lexLt : List Char → List Char → Bool
  | [], [] => false
  | [], _ :: _ => true
  | _ :: _, [] => false
  | a :: as, b :: bs =>
    if a.toNat < b.toNat then true
    else if b.toNat < a.toNat then false
    else lexLt as bs

/-- One step of selecting the greatest filename. -/
def pickNewer (acc : Option String) (f : String) : Option String :=
  match acc with
  | none => some f
  | some g => if lexLt g.data f.data then some f else some g

/-- Model of `TrendAnalyzer.get_latest_data_file`: glob the data
directory for `{source}_raw_*.json`, sort descending, take the first;
`none` models the raised `FileNotFoundError`. -/
def getLatestDataFile (source : String) (files : List String) : Option String :=
  (files.filter (matchesRawPattern source)).foldl pickNewer none

/-- Artifacts the pipeline can write, in order of writing. -/
inductive Artifact where
  | debug (content : List Char)
  | htmlReport
  | indexPage
  | jsonResult
  deriving DecidableEq

/-- Model of `TrendAnalyzer.run`: locate the newest raw-data file, run
the analysis on the completion response, and on success write the HTML
report, the per-source index page and the JSON result; any raised error
is caught at the top level and turned into exit status 1.  Returns the
process exit code and the artifacts written, in order. -/
def runModel (source : String) (files : List String) (data : TopicData)
    (topicCount : Nat) (response : String) : Nat × List Artifact :=
  match getLatestDataFile source files with
  | none => (1, [])
  | some _ =>
    let nr := analyzeTopicsModel data topicCount response
    match nr.result with
    | .error _ => (1, nr.debugWrites.map .debug)
    | .ok _ =>
      (0, nr.debugWrites.map .debug ++ [.htmlReport, .indexPage, .jsonResult])

/-- Does `needle` occur as a contiguous substring of `hay`? -/
def containsSeq (needle : List Char) : List Char → Bool
  | [] => needle.isEmpty
  | c :: t => needle.isPrefixOf (c :: t) || containsSeq needle t

/-- JSON values built only from numbers, booleans, `null` and arrays —
no string literals and no objects.  The amended repair-idempotence claim
is restricted to texts denoting such values. -/
inductive NoStrObj : Json → Prop where
  | null : NoStrObj .null
  | bool (b : Bool) : NoStrObj (.bool b)
  | num (n : Int) : NoStrObj (.num n)
  | arr (xs : List Json) (h : ∀ x ∈ xs, NoStrObj x) : NoStrObj (.arr xs)

/-- Token characters of texts denoting values in the `NoStrObj` class:
digits, sign, array brackets, comma, and the letters of
`true`/`false`/`null`. -/
def intTokChar (c : Char) : Bool :=
  isDig c || c = '-' || c = '[' || c = ']' || c = ',' ||
    c = 't' || c = 'r' || c = 'u' || c = 'e' ||
    c = 'f' || c = 'a' || c = 'l' || c = 's' || c = 'n'

/-- Characters of such texts: a token character or JSON whitespace. -/
def intTextChar (c : Char) : Bool := intTokChar c || isJsonWs c

/-- The non-whitespace view of a text (whitespace characters removed). -/
def fw (cs : List Char) : List Char := cs.filter (fun c => !isJsonWs c)

/-- An adjacent non-whitespace pair on which none of the repair rules
active on string-free texts (rules b, k1, l, m2) can fire. -/
def goodPair (x y : Char) : Prop :=
  ¬ ((x = ']' ∧ y = '[') ∨ (x = ',' ∧ y = ']') ∨
     (x = ',' ∧ y = ',') ∨ (x = '[' ∧ y = ','))

/-- First non-whitespace character of a value in the class. -/
def startTok (c : Char) : Prop :=
  c = '[' ∨ c = '-' ∨ c = 't' ∨ c = 'f' ∨ c = 'n' ∨ isDig c = true

/-- Last non-whitespace character of a value in the class. -/
def endTok (c : Char) : Prop :=
  c = ']' ∨ c = 'e' ∨ c = 'l' ∨ isDig c = true

-- ===================================================================
-- Helper lemmas
-- ===================================================================

theorem isPrefixOf_iff_exists {n h : List Char} :
    n.isPrefixOf h = true ↔ ∃ t, h = n ++ t := by
  induction n generalizing h with
  | nil => simp [List.isPrefixOf]
  | cons a as ih =>
    cases h with
    | nil => simp [List.isPrefixOf]
    | cons b bs =>
      simp only [List.isPrefixOf, Bool.and_eq_true, beq_iff_eq, ih,
        List.cons_append, List.cons.injEq]
      constructor
      · rintro ⟨rfl, t, rfl⟩
        exact ⟨t, rfl, rfl⟩
      · rintro ⟨t, rfl, rfl⟩
        exact ⟨rfl, t, rfl⟩

theorem containsSeq_iff {n h : List Char} :
    containsSeq n h = true ↔ ∃ p q, h = p ++ n ++ q := by
  induction h with
  | nil =>
    simp only [containsSeq, List.isEmpty_iff]
    constructor
    · rintro rfl
      exact ⟨[], [], rfl⟩
    · rintro ⟨p, q, hpq⟩
      rcases List.append_eq_nil.mp (List.append_eq_nil.mp hpq.symm |>.1) with ⟨-, h2⟩
      exact h2
  | cons c t ih =>
    simp only [containsSeq, Bool.or_eq_true, isPrefixOf_iff_exists, ih]
    constructor
    · rintro (⟨q, hq⟩ | ⟨p, q, hpq⟩)
      · exact ⟨[], q, by simpa using hq⟩
      · exact ⟨c :: p, q, by simp [hpq]⟩
    · rintro ⟨p, q, hpq⟩
      cases p with
      | nil => exact .inl ⟨q, by simpa using hpq⟩
      | cons x xs =>
        right
        rw [List.cons_append, List.cons_append] at hpq
        injection hpq with h1 h2
        exact ⟨xs, q, h2⟩

-- ===================================================================
-- C7 — repair of a missing comma between adjacent objects
-- ===================================================================

/-- C7: on the literal input `[{"rank":1,"title":"A"}{"rank":2,"title":"B"}]`
the repair chain rewrites the `}{` boundary to `},{`, and the Normalizer
returns the two-record structure obtained by parsing the corrected text
`[{"rank":1,"title":"A"},{"rank":2,"title":"B"}]`. -/
theorem c7_missing_comma_between_objects :
    fixJson "[\x7b\"rank\":1,\"title\":\"A\"\x7d\x7b\"rank\":2,\"title\":\"B\"\x7d]" =
      "[\x7b\"rank\":1,\"title\":\"A\"\x7d,\x7b\"rank\":2,\"title\":\"B\"\x7d]" ∧
    (analyzeResponse "[\x7b\"rank\":1,\"title\":\"A\"\x7d\x7b\"rank\":2,\"title\":\"B\"\x7d]").result =
      .ok (.arr [.obj [("rank", .num 1), ("title", .str "A")],
                 .obj [("rank", .num 2), ("title", .str "B")]]) ∧
    jsonLoads "[\x7b\"rank\":1,\"title\":\"A\"\x7d,\x7b\"rank\":2,\"title\":\"B\"\x7d]" =
      some (.arr [.obj [("rank", .num 1), ("title", .str "A")],
                  .obj [("rank", .num 2), ("title", .str "B")]]) ∧
    resultLen (.arr [.obj [("rank", .num 1), ("title", .str "A")],
                     .obj [("rank", .num 2), ("title", .str "B")]]) = 2 :=
  ⟨rfl, rfl, rfl, rfl⟩

-- ===================================================================
-- C10 — WEIBO_SKILL_TOPIC_COUNT override
-- ===================================================================

/-- C10: the `WEIBO_SKILL_TOPIC_COUNT` override is applied exactly when
the variable is set to a nonempty all-digit value (Python
`topic_count and topic_count.isdigit()`); a set non-digit or empty value
is silently ignored and the configuration is returned unchanged, and the
digit test is equivalent to "nonempty and every character a decimal
digit". -/
theorem c10_topic_count_override (tc : String) (config : Config) :
    (pyIsdigit tc = false → loadEnvTopicCount (some tc) config = config) ∧
    loadEnvTopicCount none config = config ∧
    (pyIsdigit tc = true →
      loadEnvTopicCount (some tc) config =
        { config with topicCount := digitsVal tc.data }) ∧
    (pyIsdigit tc = true ↔ tc.data ≠ [] ∧ ∀ c ∈ tc.data, isDig c = true) := by
  refine ⟨?_, rfl, ?_, ?_⟩
  · intro h
    simp [loadEnvTopicCount, h]
  · intro h
    have hne : tc.data.isEmpty = false := by
      by_contra hc
      rw [Bool.not_eq_false] at hc
      simp [pyIsdigit, hc] at h
    simp [loadEnvTopicCount, h, hne]
  · unfold pyIsdigit
    cases tc.data with
    | nil => simp
    | cons a l => simp [List.all_eq_true]

/-- Witness for `c10_topic_count_override` at the values `"12a"` (ignored)
and `"35"` (applied). -/
theorem c10_topic_count_override_witness :
    loadEnvTopicCount (some "12a") ⟨20, "data"⟩ = ⟨20, "data"⟩ ∧
    loadEnvTopicCount (some "35") ⟨20, "data"⟩ = ⟨35, "data"⟩ := by
  have h1 := c10_topic_count_override "12a" ⟨20, "data"⟩
  have h2 := c10_topic_count_override "35" ⟨20, "data"⟩
  exact ⟨h1.1 (by decide), (h2.2.2.1 (by decide)).trans (by decide)⟩

-- ===================================================================
-- C3 — output length / rank invariant (corrected)
-- ===================================================================

/-- C3, counterexample: with one input topic of rank 1 and topic count 1,
the completion response `[{"rank": 2}, {"rank": 3}]` is accepted by the
Normalizer on the strict path, yet the returned list has 2 > 1 entries
and carries ranks 2 and 3, which are not among the input ranks ([1]):
the code never validates the response against the sent topics. -/
theorem c3_counterexample :
    (analyzeTopicsModel ⟨[⟨1, "A"⟩]⟩ 1 "[\x7b\"rank\": 2\x7d, \x7b\"rank\": 3\x7d]").result =
      .ok (.arr [.obj [("rank", .num 2)], .obj [("rank", .num 3)]]) ∧
    resultLen (.arr [.obj [("rank", .num 2)], .obj [("rank", .num 3)]]) = 2 ∧
    resultRanks (.arr [.obj [("rank", .num 2)], .obj [("rank", .num 3)]]) = [2, 3] ∧
    ¬ (2 : Nat) ≤ 1 ∧
    (2 : Int) ∉ ([⟨1, "A"⟩] : List RawTopic).map RawTopic.rank :=
  ⟨rfl, rfl, rfl, by decide, by decide⟩

/-- C3, amended: the guarantee the code actually provides is about the
prompt, not the response — the topic list embedded in the prompt is the
input list truncated to the configured count, so it has at most
`topic_count` entries, each (with its rank) drawn from the input list;
the Normalizer's returned structure is exactly the parsed response and is
not validated against these bounds. -/
theorem c3_amended (data : TopicData) (topicCount : Nat) (response : String) :
    (promptTopics data topicCount).length ≤ topicCount ∧
    (∀ t ∈ promptTopics data topicCount, t ∈ data.topics) ∧
    analyzeTopicsModel data topicCount response = analyzeResponseL response.data := by
  refine ⟨?_, ?_, rfl⟩
  · show (data.topics.take topicCount).length ≤ topicCount
    rw [List.length_take]
    exact min_le_left _ _
  · intro t ht
    exact List.mem_of_mem_take ht

-- ===================================================================
-- C1 — repair idempotence on valid input (corrected): counterexample
-- ===================================================================

/-- C1, counterexample: `["}{"]` is strictly valid JSON (one string
element `}{`), yet repair rule (a) rewrites the `}{` inside the string
literal, producing `["},{"]`, whose parse is a different value: the rule
chain can alter the parsed content of already-valid input. -/
theorem c1_counterexample :
    jsonLoads "[\"\x7d\x7b\"]" = some (.arr [.str "\x7d\x7b"]) ∧
    fixJson "[\"\x7d\x7b\"]" = "[\"\x7d,\x7b\"]" ∧
    jsonLoads "[\"\x7d,\x7b\"]" = some (.arr [.str "\x7d,\x7b"]) ∧
    Json.arr [.str "\x7d\x7b"] ≠ Json.arr [.str "\x7d,\x7b"] := by
  refine ⟨rfl, rfl, rfl, ?_⟩
  intro h
  injection h with h1
  injection h1 with h2 h3
  injection h2 with h4
  exact absurd h4 (by decide)

-- ===================================================================
-- C4 — extraction correctness (corrected): counterexample
-- ===================================================================

/-- C4, counterexample: for `hello [1] world]` — prose around the single
well-formed span `[1]`, whole text not strictly parseable — the greedy
extraction grabs from the first `[` to the *last* `]`, i.e. `[1] world]`,
which neither parses nor repairs, so the Normalizer raises instead of
returning the parse of the span: with bracket characters in the trailing
prose the claim fails. -/
theorem c4_counterexample :
    jsonLoads "[1]" = some (.arr [.num 1]) ∧
    extractArr (fenceStrip "hello [1] world]".data) = some "[1] world]".data ∧
    (analyzeResponse "hello [1] world]").result = .error .parseFail :=
  ⟨rfl, rfl, rfl⟩

-- ===================================================================
-- C9 — grade counters partition the analysis list
-- ===================================================================

theorem counts_partition (gs : GradeThresholds) (hle : gs.good ≤ gs.excellent) :
    ∀ l : List AnalysisEntry,
      excellentCount gs l + goodCount gs l +
        (l.filter (fun a => entryScore a < gs.good)).length = l.length := by
  intro l
  induction l with
  | nil => rfl
  | cons a t ih =>
    simp only [excellentCount, goodCount, List.filter_cons] at ih ⊢
    split_ifs with h1 h2 h3 <;>
      simp only [decide_eq_true_eq, Bool.and_eq_true, List.length_cons] at * <;>
      omega

/-- C9: the three grade counters of `generate_html_report` partition the
analysis list — the excellent count plus the good count plus the computed
average remainder equals the list length, and (for positive, ordered
thresholds) the average remainder is exactly the number of entries whose
score is below the good threshold; an entry without a `total_score` field
is scored 0 and falls in neither the excellent nor the good bucket, hence
is counted as average. -/
theorem c9_grade_counters_partition (gs : GradeThresholds)
    (analysis : List AnalysisEntry)
    (hgood : 0 < gs.good) (hle : gs.good ≤ gs.excellent) :
    (excellentCount gs analysis : Int) + goodCount gs analysis +
        averageCount gs analysis = analysis.length ∧
    averageCount gs analysis =
      ((analysis.filter (fun a => entryScore a < gs.good)).length : Int) ∧
    ∀ a ∈ analysis, a.total_score = none →
      entryScore a < gs.good ∧
      ¬ gs.excellent ≤ entryScore a ∧
      ¬ (gs.good ≤ entryScore a ∧ entryScore a < gs.excellent) := by
  refine ⟨by unfold averageCount; ring, ?_, ?_⟩
  · have h := counts_partition gs hle analysis
    unfold averageCount
    omega
  · intro a _ hnone
    have h0 : entryScore a = 0 := by simp [entryScore, hnone]
    omega

/-- Witness for `c9_grade_counters_partition` at the default thresholds
(80/60) on a three-entry list with one missing score. -/
theorem c9_grade_counters_partition_witness :
    averageCount ⟨80, 60⟩ [⟨none⟩, ⟨some 85⟩, ⟨some 70⟩] = 1 := by
  have h := c9_grade_counters_partition ⟨80, 60⟩ [⟨none⟩, ⟨some 85⟩, ⟨some 70⟩]
    (by decide) (by decide)
  rw [h.2.1]
  decide

-- ===================================================================
-- C8 — newest-file selection
-- ===================================================================

theorem lexLt_irrefl : ∀ a : List Char, lexLt a a = false := by
  intro a
  induction a with
  | nil => rfl
  | cons x xs ih => simp [lexLt, ih]

theorem lexLt_trans : ∀ a b c : List Char,
    lexLt a b = true → lexLt b c = true → lexLt a c = true := by
  intro a
  induction a with
  | nil =>
    intro b c hab hbc
    cases b with
    | nil => simp [lexLt] at hab
    | cons y ys =>
      cases c with
      | nil => simp [lexLt] at hbc
      | cons z zs => rfl
  | cons x xs ih =>
    intro b c hab hbc
    cases b with
    | nil => simp [lexLt] at hab
    | cons y ys =>
      cases c with
      | nil => simp [lexLt] at hbc
      | cons z zs =>
        simp only [lexLt] at hab hbc ⊢
        by_cases hxy : x.toNat < y.toNat
        · by_cases hyz : y.toNat < z.toNat
          · have hxz : x.toNat < z.toNat := by omega
            rw [if_pos hxz]
          · by_cases hzy : z.toNat < y.toNat
            · rw [if_neg hyz, if_pos hzy] at hbc
              exact absurd hbc (by simp)
            · have hxz : x.toNat < z.toNat := by omega
              rw [if_pos hxz]
        · by_cases hyx : y.toNat < x.toNat
          · rw [if_neg hxy, if_pos hyx] at hab
            exact absurd hab (by simp)
          · rw [if_neg hxy, if_neg hyx] at hab
            by_cases hyz : y.toNat < z.toNat
            · have hxz : x.toNat < z.toNat := by omega
              rw [if_pos hxz]
            · by_cases hzy : z.toNat < y.toNat
              · rw [if_neg hyz, if_pos hzy] at hbc
                exact absurd hbc (by simp)
              · rw [if_neg hyz, if_neg hzy] at hbc
                have hxz : ¬ x.toNat < z.toNat := by omega
                have hzx : ¬ z.toNat < x.toNat := by omega
                rw [if_neg hxz, if_neg hzx]
                exact ih ys zs hab hbc

theorem lexLt_negtrans : ∀ a b c : List Char,
    lexLt a b = false → lexLt b c = false → lexLt a c = false := by
  intro a
  induction a with
  | nil =>
    intro b c hab hbc
    cases b with
    | cons y ys => simp [lexLt] at hab
    | nil =>
      cases c with
      | cons z zs => simp [lexLt] at hbc
      | nil => rfl
  | cons x xs ih =>
    intro b c hab hbc
    cases c with
    | nil => rfl
    | cons z zs =>
      cases b with
      | nil => simp [lexLt] at hbc
      | cons y ys =>
        simp only [lexLt] at hab hbc ⊢
        by_cases hxy : x.toNat < y.toNat
        · rw [if_pos hxy] at hab
          exact absurd hab (by simp)
        · by_cases hyz : y.toNat < z.toNat
          · rw [if_pos hyz] at hbc
            exact absurd hbc (by simp)
          · by_cases hyx : y.toNat < x.toNat
            · have hzx : z.toNat < x.toNat := by omega
              have hxz : ¬ x.toNat < z.toNat := by omega
              rw [if_neg hxz, if_pos hzx]
            · by_cases hzy : z.toNat < y.toNat
              · have hzx : z.toNat < x.toNat := by omega
                have hxz : ¬ x.toNat < z.toNat := by omega
                rw [if_neg hxz, if_pos hzx]
              · rw [if_neg hxy, if_neg hyx] at hab
                rw [if_neg hyz, if_neg hzy] at hbc
                have hxz : ¬ x.toNat < z.toNat := by omega
                have hzx : ¬ z.toNat < x.toNat := by omega
                rw [if_neg hxz, if_neg hzx]
                exact ih ys zs hab hbc

theorem foldl_pickNewer_eq_none : ∀ (ms : List String) (acc : Option String),
    ms.foldl pickNewer acc = none ↔ (acc = none ∧ ms = []) := by
  intro ms
  induction ms with
  | nil => intro acc; simp
  | cons m t ih =>
    intro acc
    rw [List.foldl_cons, ih]
    constructor
    · rintro ⟨hp, -⟩
      exfalso
      cases acc with
      | none => simp [pickNewer] at hp
      | some g =>
        by_cases hc : lexLt g.data m.data <;> simp [pickNewer, hc] at hp
    · rintro ⟨-, h⟩
      exact absurd h (by simp)

theorem foldl_pickNewer_mem : ∀ (ms : List String) (acc : Option String) (f : String),
    ms.foldl pickNewer acc = some f → acc = some f ∨ f ∈ ms := by
  intro ms
  induction ms with
  | nil => intro acc f h; exact .inl h
  | cons m t ih =>
    intro acc f h
    rw [List.foldl_cons] at h
    rcases ih (pickNewer acc m) f h with hp | hm
    · cases acc with
      | none =>
        simp only [pickNewer] at hp
        injection hp with hp
        exact .inr (hp ▸ List.mem_cons_self m t)
      | some g =>
        by_cases hc : lexLt g.data m.data
        · simp only [pickNewer, hc, if_pos] at hp
          injection hp with hp
          exact .inr (hp ▸ List.mem_cons_self m t)
        · simp only [pickNewer, hc] at hp
          simp only [Bool.false_eq_true, if_false] at hp
          exact .inl hp
    · exact .inr (List.mem_cons_of_mem m hm)

theorem foldl_pickNewer_max : ∀ (ms : List String) (acc : Option String) (f : String),
    ms.foldl pickNewer acc = some f →
      (∀ g ∈ ms, lexLt f.data g.data = false) ∧
      (∀ a, acc = some a → lexLt f.data a.data = false) := by
  intro ms
  induction ms with
  | nil =>
    intro acc f h
    refine ⟨fun g hg => absurd hg (List.not_mem_nil g), fun a ha => ?_⟩
    rw [ha] at h
    injection h with h
    rw [← h]
    exact lexLt_irrefl a.data
  | cons m t ih =>
    intro acc f h
    rw [List.foldl_cons] at h
    obtain ⟨h1, h2⟩ := ih (pickNewer acc m) f h
    cases acc with
    | none =>
      have hfm : lexLt f.data m.data = false := h2 m rfl
      refine ⟨fun g hg => ?_, fun a ha => by cases ha⟩
      rcases List.mem_cons.mp hg with rfl | hg'
      · exact hfm
      · exact h1 g hg'
    | some g0 =>
      by_cases hc : lexLt g0.data m.data = true
      · have hfm : lexLt f.data m.data = false := h2 m (by simp [pickNewer, hc])
        have hfg : lexLt f.data g0.data = false := by
          by_contra hx
          rw [Bool.not_eq_false] at hx
          have ht := lexLt_trans _ _ _ hx hc
          rw [hfm] at ht
          exact Bool.false_ne_true ht
        refine ⟨fun g hg => ?_, fun a ha => ?_⟩
        · rcases List.mem_cons.mp hg with rfl | hg'
          · exact hfm
          · exact h1 g hg'
        · injection ha with ha
          exact ha ▸ hfg
      · rw [Bool.not_eq_true] at hc
        have hfg : lexLt f.data g0.data = false := h2 g0 (by simp [pickNewer, hc])
        have hfm : lexLt f.data m.data = false := lexLt_negtrans _ _ _ hfg hc
        refine ⟨fun g hg => ?_, fun a ha => ?_⟩
        · rcases List.mem_cons.mp hg with rfl | hg'
          · exact hfm
          · exact h1 g hg'
        · injection ha with ha
          exact ha ▸ hfg

theorem getLatestDataFile_eq_none (source : String) (files : List String) :
    getLatestDataFile source files = none ↔
      ∀ f ∈ files, matchesRawPattern source f = false := by
  unfold getLatestDataFile
  rw [foldl_pickNewer_eq_none]
  simp only [true_and, List.filter_eq_nil_iff]
  constructor
  · intro h f hf
    rw [Bool.eq_false_iff]
    exact h f hf
  · intro h f hf
    rw [h f hf]
    exact Bool.false_ne_true

/-- C8: `get_latest_data_file` returns a filename exactly when some file
in the data directory matches `{source}_raw_*.json`; the returned file is
a matching one from the directory that is lexicographically greatest
among all matching files, and `FileNotFoundError` is raised exactly when
no filename matches. -/
theorem c8_latest_data_file_selection (source : String) (files : List String) :
    (∀ f, getLatestDataFile source files = some f →
        f ∈ files ∧ matchesRawPattern source f = true ∧
        ∀ g ∈ files, matchesRawPattern source g = true →
          lexLt f.data g.data = false) ∧
    (getLatestDataFile source files = none ↔
        ∀ f ∈ files, matchesRawPattern source f = false) := by
  refine ⟨fun f hf => ?_, getLatestDataFile_eq_none source files⟩
  unfold getLatestDataFile at hf
  have hmem : f ∈ files.filter (matchesRawPattern source) := by
    rcases foldl_pickNewer_mem _ _ _ hf with h | h
    · cases h
    · exact h
  have hmax := (foldl_pickNewer_max _ _ _ hf).1
  obtain ⟨hin, hmatch⟩ := List.mem_filter.mp hmem
  exact ⟨hin, hmatch, fun g hg hgm => hmax g (List.mem_filter.mpr ⟨hg, hgm⟩)⟩

/-- Witness for `c8_latest_data_file_selection` on a concrete directory
listing with two matching files and one non-matching file. -/
theorem c8_latest_data_file_selection_witness :
    getLatestDataFile "weibo"
      ["weibo_raw_20250101_120000.json", "weibo_raw_20250102_080000.json",
       "douyin_raw_20250103_000000.json"] =
      some "weibo_raw_20250102_080000.json" ∧
    ("weibo_raw_20250102_080000.json" ∈
      ["weibo_raw_20250101_120000.json", "weibo_raw_20250102_080000.json",
       "douyin_raw_20250103_000000.json"] ∧
     matchesRawPattern "weibo" "weibo_raw_20250102_080000.json" = true ∧
     ∀ g ∈ ["weibo_raw_20250101_120000.json", "weibo_raw_20250102_080000.json",
            "douyin_raw_20250103_000000.json"],
       matchesRawPattern "weibo" g = true →
         lexLt "weibo_raw_20250102_080000.json".data g.data = false) :=
  ⟨rfl,
   (c8_latest_data_file_selection "weibo"
      ["weibo_raw_20250101_120000.json", "weibo_raw_20250102_080000.json",
       "douyin_raw_20250103_000000.json"]).1
     "weibo_raw_20250102_080000.json" rfl⟩

-- ===================================================================
-- C5 — missing input file: exit 1, no artifacts
-- ===================================================================

/-- C5: when no file in the data directory matches the requested source's
raw-data pattern, the pipeline run returns exit status 1 and writes no
artifacts at all — no HTML report, no index page, no JSON result, and no
debug file. -/
theorem c5_missing_input_no_artifacts (source : String) (files : List String)
    (data : TopicData) (topicCount : Nat) (response : String)
    (h : ∀ f ∈ files, matchesRawPattern source f = false) :
    runModel source files data topicCount response = (1, []) := by
  have h1 : getLatestDataFile source files = none :=
    (getLatestDataFile_eq_none source files).mpr h
  unfold runModel
  rw [h1]

/-- Witness for `c5_missing_input_no_artifacts`: a directory with no
matching raw file for source `weibo`. -/
theorem c5_missing_input_no_artifacts_witness :
    runModel "weibo" ["notes.txt", "douyin_raw_20250101_000000.json"]
      ⟨[]⟩ 20 "[1]" = (1, []) :=
  c5_missing_input_no_artifacts "weibo"
    ["notes.txt", "douyin_raw_20250101_000000.json"] ⟨[]⟩ 20 "[1]" (by decide)

-- ===================================================================
-- C2 — debug artifact on structural-parse failure (corrected)
-- ===================================================================

/-- C2, counterexample: for the fenced failing input
` ```json\nnot json\n``` ` the Normalizer raises a parse error and writes
exactly one debug artifact, but the artifact records the fence-stripped
text `not json`, so its content does not include the verbatim original
input text. -/
theorem c2_counterexample :
    (analyzeResponse "```json\nnot json\n```").result = .error .parseFail ∧
    (analyzeResponse "```json\nnot json\n```").debugWrites =
      [dbgHdr ++ "not json".data ++ dbgFxHdr2 ++ "not json".data] ∧
    containsSeq "```json\nnot json\n```".data
      (dbgHdr ++ "not json".data ++ dbgFxHdr2 ++ "not json".data) = false ∧
    ¬ ∃ p q, dbgHdr ++ "not json".data ++ dbgFxHdr2 ++ "not json".data =
        p ++ "```json\nnot json\n```".data ++ q := by
  refine ⟨rfl, rfl, by decide, ?_⟩
  intro hex
  have h := containsSeq_iff.mpr hex
  rw [show containsSeq "```json\nnot json\n```".data
      (dbgHdr ++ "not json".data ++ dbgFxHdr2 ++ "not json".data) = false from by decide] at h
  exact Bool.false_ne_true h

/-- C2, amended: whenever the Normalizer raises a structural-parse error
after attempting repair, exactly one debug artifact is written, its
content includes the verbatim *fence-stripped* input text (equal to the
original response text whenever fence stripping and trimming remove
nothing), and the structural-parse error is propagated to the caller. -/
theorem analyzeResponseL_eq1 (raw : List Char) (v : Json)
    (h1 : jsonLoadsL (fenceStrip raw) = some v) :
    analyzeResponseL raw = ⟨.ok v, 1, []⟩ := by
  unfold analyzeResponseL
  simp only [h1]

theorem analyzeResponseL_eq2 (raw : List Char) (ex : List Char) (v : Json)
    (h1 : jsonLoadsL (fenceStrip raw) = none)
    (h2 : extractArr (fenceStrip raw) = some ex)
    (h3 : jsonLoadsL ex = some v) :
    analyzeResponseL raw = ⟨.ok v, 2, []⟩ := by
  unfold analyzeResponseL
  simp only [h1, h2, h3]

theorem analyzeResponseL_eq3ok (raw : List Char) (ex : List Char) (v : Json)
    (h1 : jsonLoadsL (fenceStrip raw) = none)
    (h2 : extractArr (fenceStrip raw) = some ex)
    (h3 : jsonLoadsL ex = none)
    (h4 : jsonLoadsL (fixJsonL ex) = some v) :
    analyzeResponseL raw = ⟨.ok v, 3, []⟩ := by
  unfold analyzeResponseL
  simp only [h1, h2, h3, h4]

theorem analyzeResponseL_eq3err (raw : List Char) (ex : List Char)
    (h1 : jsonLoadsL (fenceStrip raw) = none)
    (h2 : extractArr (fenceStrip raw) = some ex)
    (h3 : jsonLoadsL ex = none)
    (h4 : jsonLoadsL (fixJsonL ex) = none) :
    analyzeResponseL raw = ⟨.error .parseFail, 3,
      [dbgHdr ++ fenceStrip raw ++ dbgExHdr ++ ex ++ dbgFxHdr ++ fixJsonL ex]⟩ := by
  unfold analyzeResponseL
  simp only [h1, h2, h3, h4]

theorem analyzeResponseL_eq4ok (raw : List Char) (v : Json)
    (h1 : jsonLoadsL (fenceStrip raw) = none)
    (h2 : extractArr (fenceStrip raw) = none)
    (h4 : jsonLoadsL (fixJsonL (fenceStrip raw)) = some v) :
    analyzeResponseL raw = ⟨.ok v, 4, []⟩ := by
  unfold analyzeResponseL
  simp only [h1, h2, h4]

theorem analyzeResponseL_eq4err (raw : List Char)
    (h1 : jsonLoadsL (fenceStrip raw) = none)
    (h2 : extractArr (fenceStrip raw) = none)
    (h4 : jsonLoadsL (fixJsonL (fenceStrip raw)) = none) :
    analyzeResponseL raw = ⟨.error .parseFail, 4,
      [dbgHdr ++ fenceStrip raw ++ dbgFxHdr2 ++ fixJsonL (fenceStrip raw)]⟩ := by
  unfold analyzeResponseL
  simp only [h1, h2, h4]

theorem c2_debug_artifact_on_failure (raw : String)
    (h : (analyzeResponse raw).result = .error .parseFail) :
    ∃ c, (analyzeResponse raw).debugWrites = [c] ∧
      ∃ p q, c = p ++ fenceStrip raw.data ++ q := by
  unfold analyzeResponse at h ⊢
  cases h1 : jsonLoadsL (fenceStrip raw.data) with
  | some v => rw [analyzeResponseL_eq1 raw.data v h1] at h; simp at h
  | none =>
    cases h2 : extractArr (fenceStrip raw.data) with
    | some ex =>
      cases h3 : jsonLoadsL ex with
      | some v => rw [analyzeResponseL_eq2 raw.data ex v h1 h2 h3] at h; simp at h
      | none =>
        cases h4 : jsonLoadsL (fixJsonL ex) with
        | some v =>
          rw [analyzeResponseL_eq3ok raw.data ex v h1 h2 h3 h4] at h
          simp at h
        | none =>
          rw [analyzeResponseL_eq3err raw.data ex h1 h2 h3 h4]
          exact ⟨_, rfl, dbgHdr,
            dbgExHdr ++ ex ++ dbgFxHdr ++ fixJsonL ex, by simp⟩
    | none =>
      cases h4 : jsonLoadsL (fixJsonL (fenceStrip raw.data)) with
      | some v =>
        rw [analyzeResponseL_eq4ok raw.data v h1 h2 h4] at h
        simp at h
      | none =>
        rw [analyzeResponseL_eq4err raw.data h1 h2 h4]
        exact ⟨_, rfl, dbgHdr,
          dbgFxHdr2 ++ fixJsonL (fenceStrip raw.data), by simp⟩

/-- Witness for `c2_debug_artifact_on_failure` at the unrecoverable
input `{{nope`. -/
theorem c2_debug_artifact_on_failure_witness :
    ∃ c, (analyzeResponse "\x7b\x7bnope").debugWrites = [c] ∧
      ∃ p q, c = p ++ fenceStrip "\x7b\x7bnope".data ++ q :=
  c2_debug_artifact_on_failure "\x7b\x7bnope" rfl

-- ===================================================================
-- Trimming toolkit
-- ===================================================================

theorem dropWhile_append_all {p : Char → Bool} {a b : List Char}
    (h : a.all p = true) : (a ++ b).dropWhile p = b.dropWhile p := by
  induction a with
  | nil => rfl
  | cons c t ih =>
    rw [List.all_cons, Bool.and_eq_true] at h
    rw [List.cons_append, List.dropWhile_cons, if_pos h.1]
    exact ih h.2

theorem dropWhile_cons_neg {p : Char → Bool} {c : Char} {l : List Char}
    (h : p c = false) : (c :: l).dropWhile p = c :: l := by
  rw [List.dropWhile_cons, h]
  simp

theorem trimBoth_decomp (p : Char → Bool) (cs : List Char) :
    ∃ w1 w2, cs = w1 ++ trimBoth p cs ++ w2 ∧ w1.all p = true ∧ w2.all p = true := by
  refine ⟨cs.takeWhile p, ((cs.dropWhile p).reverse.takeWhile p).reverse, ?_,
    List.all_takeWhile, by rw [List.all_reverse]; exact List.all_takeWhile⟩
  conv_lhs => rw [← List.takeWhile_append_dropWhile p cs]
  rw [List.append_assoc]
  congr 1
  unfold trimBoth
  conv_lhs => rw [← List.reverse_reverse (cs.dropWhile p),
    ← List.takeWhile_append_dropWhile p (cs.dropWhile p).reverse]
  rw [List.reverse_append]

theorem trimBoth_eq_self {p : Char → Bool} {cs : List Char}
    (hhead : ∀ c, cs.head? = some c → p c = false)
    (hlast : ∀ c, cs.getLast? = some c → p c = false) :
    trimBoth p cs = cs := by
  cases cs with
  | nil => rfl
  | cons c t =>
    unfold trimBoth
    rw [dropWhile_cons_neg (hhead c rfl)]
    cases hr : (c :: t).reverse with
    | nil => exact absurd hr (by simp)
    | cons d u =>
      have hd : p d = false := by
        apply hlast
        rw [← List.head?_reverse, hr]
        rfl
      rw [dropWhile_cons_neg hd, List.reverse_eq_iff]
      exact hr.symm

theorem trimBoth_of_decomp {p : Char → Bool} {w1 core w2 : List Char}
    (hw1 : w1.all p = true) (hw2 : w2.all p = true)
    (hhead : ∀ c, core.head? = some c → p c = false)
    (hlast : ∀ c, core.getLast? = some c → p c = false) :
    trimBoth p (w1 ++ core ++ w2) = core := by
  cases core with
  | nil =>
    unfold trimBoth
    simp only [List.append_nil, List.nil_append]
    rw [dropWhile_append_all hw1,
      List.dropWhile_eq_nil_iff.mpr (fun x hx => List.all_eq_true.mp hw2 x hx)]
    rfl
  | cons c t =>
    unfold trimBoth
    rw [List.append_assoc, dropWhile_append_all hw1, List.cons_append,
      dropWhile_cons_neg (hhead c rfl), ← List.cons_append, List.reverse_append,
      dropWhile_append_all (by rwa [List.all_reverse])]
    cases hr : (c :: t).reverse with
    | nil => exact absurd hr (by simp)
    | cons d u =>
      have hd : p d = false := by
        apply hlast
        rw [← List.head?_reverse, hr]
        rfl
      rw [dropWhile_cons_neg hd, List.reverse_eq_iff]
      exact hr.symm

-- ===================================================================
-- Parser structure lemmas
-- ===================================================================

theorem dropWhile_suffix (p : Char → Bool) (l : List Char) :
    ∃ w, l = w ++ l.dropWhile p ∧ w.all p = true :=
  ⟨l.takeWhile p, (List.takeWhile_append_dropWhile p l).symm, List.all_takeWhile⟩

theorem parseStrBody_suffix (cs : List Char) :
    ∀ s rest, parseStrBody cs = some (s, rest) → ∃ pre, cs = pre ++ rest := by
  induction cs using parseStrBody.induct with
  | case1 => intro s rest h; simp [parseStrBody] at h
  | case2 r0 =>
    intro s rest h
    simp only [parseStrBody, Option.some.injEq, Prod.mk.injEq] at h
    exact ⟨['"'], by rw [h.2]; rfl⟩
  | case3 e r0 c hesc s' r' hrec ih =>
    intro s rest h
    simp only [parseStrBody, hesc, hrec, Option.some.injEq, Prod.mk.injEq] at h
    obtain ⟨p0, hp0⟩ := ih s' r' hrec
    exact ⟨'\\' :: e :: p0, by rw [← h.2, hp0, List.cons_append, List.cons_append]⟩
  | case4 e r0 c hesc hrec ih =>
    intro s rest h
    simp only [parseStrBody, hesc, hrec] at h
    exact Option.noConfusion h
  | case5 e r0 hesc =>
    intro s rest h
    simp only [parseStrBody, hesc] at h
    exact Option.noConfusion h
  | case6 c r0 hq hb hlt =>
    intro s rest h
    simp only [parseStrBody, if_pos hlt] at h
    exact Option.noConfusion h
  | case7 c r0 hq hb hlt s' r' hrec ih =>
    intro s rest h
    simp only [parseStrBody, if_neg hlt, hrec, Option.some.injEq, Prod.mk.injEq] at h
    obtain ⟨p0, hp0⟩ := ih s' r' hrec
    exact ⟨c :: p0, by rw [← h.2, hp0, List.cons_append]⟩
  | case8 c r0 hq hb hlt hrec ih =>
    intro s rest h
    simp only [parseStrBody, if_neg hlt, hrec] at h
    exact Option.noConfusion h

theorem parseNat_suffix (cs : List Char) (n : Nat) (rest : List Char)
    (h : parseNat cs = some (n, rest)) :
    ∃ pre, cs = pre ++ rest ∧ pre ≠ [] ∧ pre.all isDig = true := by
  cases cs with
  | nil => simp [parseNat] at h
  | cons c t =>
    by_cases hc : c = '0'
    · subst hc
      cases t with
      | nil =>
        simp only [parseNat, Option.some.injEq, Prod.mk.injEq] at h
        exact ⟨['0'], by rw [← h.2]; rfl, by simp, by simp [isDig]⟩
      | cons d u =>
        simp only [parseNat] at h
        split at h
        · exact absurd h (by simp)
        · simp only [Option.some.injEq, Prod.mk.injEq] at h
          exact ⟨['0'], by rw [← h.2]; rfl, by simp, by simp [isDig]⟩
    · unfold parseNat at h
      split at h
      · rename_i rest0 heq
        injection heq with h1 h2
        first
        | exact absurd h1 hc
        | exact absurd h1.symm hc
      · rename_i c2 rest2 heq
        injection heq with h1 h2
        subst h1
        subst h2
        split at h
        · rename_i hcond
          simp only [Option.some.injEq, Prod.mk.injEq] at h
          rw [Bool.and_eq_true] at hcond
          refine ⟨c :: t.takeWhile isDig, ?_, by simp, ?_⟩
          · rw [← h.2, List.cons_append, List.takeWhile_append_dropWhile]
          · simp only [List.all_cons, Bool.and_eq_true]
            exact ⟨hcond.1, List.all_takeWhile⟩
        · exact absurd h (by simp)
      · rename_i heq
        exact absurd heq (by simp)

set_option maxHeartbeats 2000000 in
theorem parseVal_succ (f : Nat) (cs : List Char) :
    parseVal (f+1) cs =
      match cs with
      | '{' :: rest =>
        match rest.dropWhile isJsonWs with
        | '}' :: r2 => some (.obj [], r2)
        | r => match parseMembers f r with
               | some (kvs, r2) => some (.obj kvs, r2)
               | none => none
      | '[' :: rest =>
        match rest.dropWhile isJsonWs with
        | ']' :: r2 => some (.arr [], r2)
        | r => match parseItems f r with
               | some (vs, r2) => some (.arr vs, r2)
               | none => none
      | '"' :: rest =>
        match parseStrBody rest with
        | some (s, r) => some (.str ⟨s⟩, r)
        | none => none
      | 't' :: 'r' :: 'u' :: 'e' :: r => some (.bool true, r)
      | 'f' :: 'a' :: 'l' :: 's' :: 'e' :: r => some (.bool false, r)
      | 'n' :: 'u' :: 'l' :: 'l' :: r => some (.null, r)
      | '-' :: rest =>
        match parseNat rest with
        | some (n, r) => some (.num (-(n : Int)), r)
        | none => none
      | _ =>
        match parseNat cs with
        | some (n, r) => some (.num (n : Int), r)
        | none => none
      := rfl

set_option maxHeartbeats 2000000 in
theorem parseItems_succ (f : Nat) (cs : List Char) :
    parseItems (f+1) cs =
      match parseVal f cs with
      | none => none
      | some (v, r) =>
        match r.dropWhile isJsonWs with
        | ',' :: r2 =>
          match parseItems f (r2.dropWhile isJsonWs) with
          | some (vs, r3) => some (v :: vs, r3)
          | none => none
        | ']' :: r2 => some ([v], r2)
        | _ => none
      := rfl

set_option maxHeartbeats 2000000 in
theorem parseMembers_succ (f : Nat) (cs : List Char) :
    parseMembers (f+1) cs =
      match cs with
      | '"' :: rest =>
        match parseStrBody rest with
        | some (k, r) =>
          match r.dropWhile isJsonWs with
          | ':' :: r2 =>
            match parseVal f (r2.dropWhile isJsonWs) with
            | some (v, r3) =>
              match r3.dropWhile isJsonWs with
              | ',' :: r4 =>
                match parseMembers f (r4.dropWhile isJsonWs) with
                | some (kvs, r5) => some ((⟨k⟩, v) :: kvs, r5)
                | none => none
              | '}' :: r4 => some ([(⟨k⟩, v)], r4)
              | _ => none
            | none => none
          | _ => none
        | none => none
      | _ => none
      := rfl

set_option maxHeartbeats 4000000 in
theorem parse_suffix (fuel : Nat) :
    (∀ cs v rest, parseVal fuel cs = some (v, rest) → ∃ pre, cs = pre ++ rest) ∧
    (∀ cs vs rest, parseItems fuel cs = some (vs, rest) → ∃ pre, cs = pre ++ rest) ∧
    (∀ cs kvs rest, parseMembers fuel cs = some (kvs, rest) → ∃ pre, cs = pre ++ rest) := by
  induction fuel with
  | zero =>
    refine ⟨?_, ?_, ?_⟩ <;> intro cs a rest h <;> exact Option.noConfusion h
  | succ f ih =>
    obtain ⟨ihv, ihi, ihm⟩ := ih
    refine ⟨?_, ?_, ?_⟩
    · intro cs v rest h
      rw [parseVal_succ] at h
      split at h
      · -- cs = '{' :: rest0
        rename_i rest0
        obtain ⟨w, hw, -⟩ := dropWhile_suffix isJsonWs rest0
        split at h
        · rename_i r2 heq
          simp only [Option.some.injEq, Prod.mk.injEq] at h
          exact ⟨'{' :: w ++ ['}'], by
            rw [← h.2, hw, heq]
            simp⟩
        · rename_i hne
          split at h
          · rename_i kvs2 r2 hm
            simp only [Option.some.injEq, Prod.mk.injEq] at h
            obtain ⟨p2, hp2⟩ := ihm _ kvs2 r2 hm
            exact ⟨'{' :: w ++ p2, by
              rw [← h.2, hw]
              conv_lhs => rw [hp2]
              simp⟩
          · exact Option.noConfusion h
      · -- cs = '[' :: rest0
        rename_i rest0
        obtain ⟨w, hw, -⟩ := dropWhile_suffix isJsonWs rest0
        split at h
        · rename_i r2 heq
          simp only [Option.some.injEq, Prod.mk.injEq] at h
          exact ⟨'[' :: w ++ [']'], by
            rw [← h.2, hw, heq]
            simp⟩
        · rename_i hne
          split at h
          · rename_i vs2 r2 hm
            simp only [Option.some.injEq, Prod.mk.injEq] at h
            obtain ⟨p2, hp2⟩ := ihi _ vs2 r2 hm
            exact ⟨'[' :: w ++ p2, by
              rw [← h.2, hw]
              conv_lhs => rw [hp2]
              simp⟩
          · exact Option.noConfusion h
      · -- cs = '"' :: rest0
        rename_i rest0
        split at h
        · rename_i s2 r2 hs
          simp only [Option.some.injEq, Prod.mk.injEq] at h
          obtain ⟨p2, hp2⟩ := parseStrBody_suffix rest0 s2 r2 hs
          exact ⟨'"' :: p2, by rw [← h.2, List.cons_append, hp2]⟩
        · exact Option.noConfusion h
      · -- true
        rename_i r0
        simp only [Option.some.injEq, Prod.mk.injEq] at h
        exact ⟨['t', 'r', 'u', 'e'], by rw [← h.2]; rfl⟩
      · -- false
        rename_i r0
        simp only [Option.some.injEq, Prod.mk.injEq] at h
        exact ⟨['f', 'a', 'l', 's', 'e'], by rw [← h.2]; rfl⟩
      · -- null
        rename_i r0
        simp only [Option.some.injEq, Prod.mk.injEq] at h
        exact ⟨['n', 'u', 'l', 'l'], by rw [← h.2]; rfl⟩
      · -- '-' :: rest0
        rename_i rest0
        split at h
        · rename_i n2 r2 hn
          simp only [Option.some.injEq, Prod.mk.injEq] at h
          obtain ⟨p2, hp2, -, -⟩ := parseNat_suffix rest0 n2 r2 hn
          exact ⟨'-' :: p2, by rw [← h.2, List.cons_append, hp2]⟩
        · exact Option.noConfusion h
      · -- default: number
        split at h
        · rename_i n2 r2 hn
          simp only [Option.some.injEq, Prod.mk.injEq] at h
          obtain ⟨p2, hp2, -, -⟩ := parseNat_suffix cs n2 r2 hn
          exact ⟨p2, by rw [← h.2, hp2]⟩
        · exact Option.noConfusion h
    · intro cs vs rest h
      rw [parseItems_succ] at h
      split at h
      · exact Option.noConfusion h
      · rename_i v1 r1 hv
        obtain ⟨p1, hp1⟩ := ihv cs v1 r1 hv
        obtain ⟨w, hw, -⟩ := dropWhile_suffix isJsonWs r1
        split at h
        · rename_i r2 heq
          split at h
          · rename_i vs2 r3 hitems
            simp only [Option.some.injEq, Prod.mk.injEq] at h
            obtain ⟨w2, hw2, -⟩ := dropWhile_suffix isJsonWs r2
            obtain ⟨p2, hp2⟩ := ihi _ vs2 r3 hitems
            refine ⟨p1 ++ w ++ ',' :: w2 ++ p2, ?_⟩
            rw [← h.2, hp1, hw, heq, hw2, hp2]
            simp [List.append_assoc]
          · exact Option.noConfusion h
        · rename_i r2 heq
          simp only [Option.some.injEq, Prod.mk.injEq] at h
          refine ⟨p1 ++ w ++ [']'], ?_⟩
          rw [← h.2, hp1, hw, heq]
          simp [List.append_assoc]
        · exact Option.noConfusion h
    · intro cs kvs rest h
      rw [parseMembers_succ] at h
      split at h
      · rename_i rest0
        split at h
        · rename_i k1 r1 hk
          obtain ⟨p1, hp1⟩ := parseStrBody_suffix rest0 k1 r1 hk
          obtain ⟨w, hw, -⟩ := dropWhile_suffix isJsonWs r1
          split at h
          · rename_i r2 heq
            obtain ⟨w2, hw2, -⟩ := dropWhile_suffix isJsonWs r2
            split at h
            · rename_i v3 r3 hv
              obtain ⟨p3, hp3⟩ := ihv _ v3 r3 hv
              obtain ⟨w3, hw3, -⟩ := dropWhile_suffix isJsonWs r3
              split at h
              · rename_i r4 heq4
                obtain ⟨w4, hw4, -⟩ := dropWhile_suffix isJsonWs r4
                split at h
                · rename_i kvs5 r5 hm
                  simp only [Option.some.injEq, Prod.mk.injEq] at h
                  obtain ⟨p5, hp5⟩ := ihm _ kvs5 r5 hm
                  refine ⟨'"' :: p1 ++ w ++ ':' :: w2 ++ p3 ++ w3 ++ ',' :: w4 ++ p5, ?_⟩
                  rw [← h.2, List.cons_append, hp1, hw, heq, hw2, hp3, hw3, heq4, hw4, hp5]
                  simp [List.append_assoc]
                · exact Option.noConfusion h
              · rename_i r4 heq4
                simp only [Option.some.injEq, Prod.mk.injEq] at h
                refine ⟨'"' :: p1 ++ w ++ ':' :: w2 ++ p3 ++ w3 ++ ['}'], ?_⟩
                rw [← h.2, List.cons_append, hp1, hw, heq, hw2, hp3, hw3, heq4]
                simp [List.append_assoc]
              · exact Option.noConfusion h
            · exact Option.noConfusion h
          · exact Option.noConfusion h
        · exact Option.noConfusion h
      · exact Option.noConfusion h

theorem parseItems_close (fuel : Nat) :
    ∀ cs vs rest, parseItems fuel cs = some (vs, rest) →
      ∃ pre, cs = pre ++ ']' :: rest := by
  induction fuel with
  | zero => intro cs vs rest h; exact Option.noConfusion h
  | succ f ih =>
    intro cs vs rest h
    rw [parseItems_succ] at h
    split at h
    · exact Option.noConfusion h
    · rename_i v1 r1 hv
      obtain ⟨w, hw, -⟩ := dropWhile_suffix isJsonWs r1
      obtain ⟨p1, hp1⟩ := (parse_suffix f).1 cs v1 r1 hv
      split at h
      · rename_i r2 heq
        split at h
        · rename_i vs2 r3 hitems
          simp only [Option.some.injEq, Prod.mk.injEq] at h
          obtain ⟨w2, hw2, -⟩ := dropWhile_suffix isJsonWs r2
          obtain ⟨p2, hp2⟩ := ih _ vs2 r3 hitems
          refine ⟨p1 ++ w ++ ',' :: w2 ++ p2, ?_⟩
          rw [← h.2, hp1, hw, heq]
          conv_lhs => rw [hw2, hp2]
          simp
        · exact Option.noConfusion h
      · rename_i r2 heq
        simp only [Option.some.injEq, Prod.mk.injEq] at h
        refine ⟨p1 ++ w, ?_⟩
        rw [← h.2, hp1, hw, heq]
        simp
      · exact Option.noConfusion h

theorem parseVal_arr_shape (fuel : Nat) (cs : List Char) (vs : List Json)
    (rest : List Char) (h : parseVal fuel cs = some (.arr vs, rest)) :
    ∃ mid, cs = '[' :: mid ++ ']' :: rest := by
  cases fuel with
  | zero => exact Option.noConfusion h
  | succ f =>
    rw [parseVal_succ] at h
    split at h
    · split at h
      · simp at h
      · split at h
        · simp at h
        · exact Option.noConfusion h
    · rename_i rest0
      obtain ⟨w, hw, -⟩ := dropWhile_suffix isJsonWs rest0
      split at h
      · rename_i r2 heq
        simp only [Option.some.injEq, Prod.mk.injEq] at h
        refine ⟨w, ?_⟩
        rw [hw, heq, h.2]
        simp
      · rename_i hne
        split at h
        · rename_i vs2 r2 hitems
          simp only [Option.some.injEq, Prod.mk.injEq] at h
          obtain ⟨p2, hp2⟩ := parseItems_close f _ vs2 r2 hitems
          refine ⟨w ++ p2, ?_⟩
          rw [hw]
          conv_lhs => rw [hp2]
          rw [h.2]
          simp
        · exact Option.noConfusion h
    · split at h
      · simp at h
      · exact Option.noConfusion h
    · simp at h
    · simp at h
    · simp at h
    · split at h
      · simp at h
      · exact Option.noConfusion h
    · split at h
      · simp at h
      · exact Option.noConfusion h

theorem jsonLoadsL_inv (cs : List Char) (v : Json) (h : jsonLoadsL cs = some v) :
    parseVal ((jsonTrim cs).length + 2) (jsonTrim cs) = some (v, []) := by
  unfold jsonLoadsL at h
  split at h
  · rename_i v2 heq
    injection h with h2
    rw [← h2]
    exact heq
  · exact Option.noConfusion h

theorem jsonWs_pyWs {c : Char} (h : isJsonWs c = true) : isPyWs c = true := by
  simp only [isJsonWs, Bool.or_eq_true, decide_eq_true_eq] at h
  rcases h with ((h | h) | h) | h <;> subst h <;> rfl

theorem all_jsonWs_pyWs {l : List Char} (h : l.all isJsonWs = true) :
    l.all isPyWs = true := by
  rw [List.all_eq_true] at h ⊢
  exact fun x hx => jsonWs_pyWs (h x hx)

theorem dropFenceEnd_rbrack (l : List Char) :
    dropFenceEnd (l ++ [']']) = l ++ [']'] := by
  unfold dropFenceEnd
  rw [List.reverse_concat]
  rfl

theorem dropFenceEnd_fence (l : List Char) :
    dropFenceEnd (l ++ "\n```".data) = l ++ ['\n'] := by
  unfold dropFenceEnd
  rw [show (l ++ "\n```".data).reverse = '`' :: '`' :: '`' :: '\n' :: l.reverse from by
    rw [List.reverse_append]
    rfl]
  simp

theorem getLast?_fence (x : List Char) :
    (x ++ "\n```".data).getLast? = some '`' := by
  rw [show ("\n```".data : List Char) = ['\n', '`', '`'] ++ ['`'] from rfl,
    ← List.append_assoc, List.getLast?_concat]

/-- For a strictly-valid JSON array text, the fence-stripping stage leaves
exactly the JSON-trimmed core, whether the text is presented bare, wrapped
in a ```json fence, or wrapped in a bare ``` fence; and the core itself
still parses to the same value. -/
theorem valid_arr_strip (cs : List Char) (vs : List Json)
    (h : jsonLoadsL cs = some (.arr vs)) :
    jsonLoadsL (jsonTrim cs) = some (.arr vs) ∧
    fenceStrip cs = jsonTrim cs ∧
    fenceStrip ("```json\n".data ++ cs ++ "\n```".data) = jsonTrim cs ∧
    fenceStrip ("```\n".data ++ cs ++ "\n```".data) = jsonTrim cs ∧
    pyStrip cs = jsonTrim cs := by
  have hpv := jsonLoadsL_inv cs _ h
  obtain ⟨mid, hmid⟩ := parseVal_arr_shape _ _ _ _ hpv
  have hhdJ : ∀ c, (jsonTrim cs).head? = some c → isJsonWs c = false := by
    rw [hmid]
    intro c hc
    rw [List.cons_append, List.head?_cons, Option.some.injEq] at hc
    subst hc
    rfl
  have hlastJ : ∀ c, (jsonTrim cs).getLast? = some c → isJsonWs c = false := by
    rw [hmid]
    intro c hc
    rw [show ('[' :: mid) ++ ']' :: ([] : List Char) = ('[' :: mid) ++ [']'] from rfl,
      List.getLast?_concat, Option.some.injEq] at hc
    subst hc
    rfl
  have hhdP : ∀ c, (jsonTrim cs).head? = some c → isPyWs c = false := by
    rw [hmid]
    intro c hc
    rw [List.cons_append, List.head?_cons, Option.some.injEq] at hc
    subst hc
    rfl
  have hlastP : ∀ c, (jsonTrim cs).getLast? = some c → isPyWs c = false := by
    rw [hmid]
    intro c hc
    rw [show ('[' :: mid) ++ ']' :: ([] : List Char) = ('[' :: mid) ++ [']'] from rfl,
      List.getLast?_concat, Option.some.injEq] at hc
    subst hc
    rfl
  obtain ⟨w1, w2, hdecomp0, hw1, hw2⟩ := trimBoth_decomp isJsonWs cs
  have hdecomp : cs = w1 ++ jsonTrim cs ++ w2 := hdecomp0
  have hJJ : jsonTrim (jsonTrim cs) = jsonTrim cs :=
    trimBoth_eq_self hhdJ hlastJ
  have hPcore : pyStrip (jsonTrim cs) = jsonTrim cs :=
    trimBoth_eq_self hhdP hlastP
  have hA : jsonLoadsL (jsonTrim cs) = some (.arr vs) := by
    unfold jsonLoadsL
    rw [hJJ, hpv]
  have hdfs : dropFenceStart (jsonTrim cs) = jsonTrim cs := by
    rw [hmid, List.cons_append]
    rfl
  have hdfe : dropFenceEnd (jsonTrim cs) = jsonTrim cs := by
    conv_lhs => rw [hmid]
    rw [show ('[' :: mid) ++ ']' :: ([] : List Char) = ('[' :: mid) ++ [']'] from rfl,
      dropFenceEnd_rbrack, ← hmid]
  have hps0 : pyStrip cs = jsonTrim cs := by
    unfold pyStrip
    conv_lhs => rw [hdecomp]
    exact trimBoth_of_decomp (all_jsonWs_pyWs hw1) (all_jsonWs_pyWs hw2) hhdP hlastP
  have hB : fenceStrip cs = jsonTrim cs := by
    unfold fenceStrip
    rw [hps0, hdfs, hdfe, hPcore]
  refine ⟨hA, hB, ?_, ?_, hps0⟩
  · unfold fenceStrip
    have hps : pyStrip ("```json\n".data ++ cs ++ "\n```".data) =
        "```json\n".data ++ cs ++ "\n```".data := by
      apply trimBoth_eq_self
      · intro c hc
        rw [show ("```json\n".data ++ cs ++ "\n```".data).head? = some '`' from rfl,
          Option.some.injEq] at hc
        subst hc
        rfl
      · intro c hc
        rw [getLast?_fence, Option.some.injEq] at hc
        subst hc
        rfl
    rw [hps]
    rw [show dropFenceStart ("```json\n".data ++ cs ++ "\n```".data) =
        ('\n' :: cs) ++ "\n```".data from rfl]
    rw [dropFenceEnd_fence]
    unfold pyStrip
    rw [show ('\n' :: cs) ++ ['\n'] =
        ('\n' :: w1) ++ jsonTrim cs ++ (w2 ++ ['\n']) from by
      conv_lhs => rw [hdecomp]
      simp]
    exact trimBoth_of_decomp
      (by simp only [List.all_cons, Bool.and_eq_true]
          exact ⟨rfl, all_jsonWs_pyWs hw1⟩)
      (by rw [List.all_append, Bool.and_eq_true]
          exact ⟨all_jsonWs_pyWs hw2, rfl⟩)
      hhdP hlastP
  · unfold fenceStrip
    have hps : pyStrip ("```\n".data ++ cs ++ "\n```".data) =
        "```\n".data ++ cs ++ "\n```".data := by
      apply trimBoth_eq_self
      · intro c hc
        rw [show ("```\n".data ++ cs ++ "\n```".data).head? = some '`' from rfl,
          Option.some.injEq] at hc
        subst hc
        rfl
      · intro c hc
        rw [getLast?_fence, Option.some.injEq] at hc
        subst hc
        rfl
    rw [hps]
    rw [show dropFenceStart ("```\n".data ++ cs ++ "\n```".data) =
        ('\n' :: cs) ++ "\n```".data from rfl]
    rw [dropFenceEnd_fence]
    unfold pyStrip
    rw [show ('\n' :: cs) ++ ['\n'] =
        ('\n' :: w1) ++ jsonTrim cs ++ (w2 ++ ['\n']) from by
      conv_lhs => rw [hdecomp]
      simp]
    exact trimBoth_of_decomp
      (by simp only [List.all_cons, Bool.and_eq_true]
          exact ⟨rfl, all_jsonWs_pyWs hw1⟩)
      (by rw [List.all_append, Bool.and_eq_true]
          exact ⟨all_jsonWs_pyWs hw2, rfl⟩)
      hhdP hlastP

-- ===================================================================
-- C6 — strict path and fence invariance
-- ===================================================================

/-- C6: for every syntactically valid JSON array text (in the modelled
subset), whether presented bare, wrapped in a ```json fence, or wrapped
in a bare ``` fence, the Normalizer returns exactly the parsed structure
of the array at stage 1 (strict parse) with no debug writes: fence
presence or absence does not change the result, and no later stage
runs. -/
theorem c6_strict_path_fence_invariant (t : String) (vs : List Json)
    (h : jsonLoads t = some (.arr vs)) :
    analyzeResponse t = ⟨.ok (.arr vs), 1, []⟩ ∧
    analyzeResponse ("```json\n" ++ t ++ "\n```") = ⟨.ok (.arr vs), 1, []⟩ ∧
    analyzeResponse ("```\n" ++ t ++ "\n```") = ⟨.ok (.arr vs), 1, []⟩ := by
  obtain ⟨hA, hB, hC, hD, -⟩ := valid_arr_strip t.data vs h
  refine ⟨?_, ?_, ?_⟩
  · unfold analyzeResponse
    exact analyzeResponseL_eq1 t.data _ (by rw [hB]; exact hA)
  · unfold analyzeResponse
    rw [show ("```json\n" ++ t ++ "\n```").data =
        "```json\n".data ++ t.data ++ "\n```".data from by
      rw [String.data_append, String.data_append]]
    exact analyzeResponseL_eq1 _ _ (by rw [hC]; exact hA)
  · unfold analyzeResponse
    rw [show ("```\n" ++ t ++ "\n```").data =
        "```\n".data ++ t.data ++ "\n```".data from by
      rw [String.data_append, String.data_append]]
    exact analyzeResponseL_eq1 _ _ (by rw [hD]; exact hA)

/-- Witness for `c6_strict_path_fence_invariant` at the valid array text
`[1, 2]`. -/
theorem c6_strict_path_fence_invariant_witness :
    analyzeResponse "[1, 2]" = ⟨.ok (.arr [.num 1, .num 2]), 1, []⟩ ∧
    analyzeResponse ("```json\n" ++ "[1, 2]" ++ "\n```") =
      ⟨.ok (.arr [.num 1, .num 2]), 1, []⟩ ∧
    analyzeResponse ("```\n" ++ "[1, 2]" ++ "\n```") =
      ⟨.ok (.arr [.num 1, .num 2]), 1, []⟩ :=
  c6_strict_path_fence_invariant "[1, 2]" [.num 1, .num 2] rfl

theorem exists_concat_of_getLast? {l : List Char} {a : Char}
    (h : l.getLast? = some a) : ∃ l', l = l' ++ [a] := by
  induction l with
  | nil => exact Option.noConfusion h
  | cons c t ih =>
    cases t with
    | nil =>
      rw [List.getLast?_singleton, Option.some.injEq] at h
      exact ⟨[], by rw [h]; rfl⟩
    | cons d u =>
      rw [List.getLast?_cons_cons] at h
      obtain ⟨l'', hl''⟩ := ih h
      exact ⟨c :: l'', by rw [List.cons_append, ← hl'']⟩

theorem extractArr_of_span (pre span post : List Char)
    (hpre : pre.all (fun c => c ≠ '[' && c ≠ ']') = true)
    (hpost : post.all (fun c => c ≠ '[' && c ≠ ']') = true)
    (hh : span.head? = some '[')
    (hl : span.getLast? = some ']') :
    extractArr (pre ++ span ++ post) = some span := by
  obtain ⟨s1, hs1⟩ := exists_concat_of_getLast? hl
  cases span with
  | nil => exact Option.noConfusion hh
  | cons c s0 =>
    rw [List.head?_cons, Option.some.injEq] at hh
    subst hh
    have hstep1 : (pre ++ ('[' :: s0) ++ post).dropWhile (· != '[') =
        ('[' :: s0) ++ post := by
      rw [List.append_assoc, dropWhile_append_all, List.cons_append,
        dropWhile_cons_neg (by rfl)]
      rw [List.all_eq_true] at hpre ⊢
      intro x hx
      have := hpre x hx
      rw [Bool.and_eq_true] at this
      simpa using this.1
    have hstep2 : (('[' :: s0) ++ post).reverse.dropWhile (· != ']') =
        ('[' :: s0).reverse := by
      rw [List.reverse_append, dropWhile_append_all]
      · conv_lhs => rw [hs1, List.reverse_concat]
        rw [dropWhile_cons_neg (by rfl), ← List.reverse_concat, ← hs1]
      · rw [List.all_eq_true] at hpost
        rw [List.all_eq_true]
        intro x hx
        have hx' : x ∈ post := List.mem_reverse.mp hx
        have := hpost x hx'
        rw [Bool.and_eq_true] at this
        simpa using this.2
    unfold extractArr
    rw [show (pre ++ ('[' :: s0) ++ post).dropWhile (· != '[') =
        ('[' :: s0) ++ post from hstep1, hstep2]
    simp

/-- C4, amended: when the prose surrounding the single well-formed
bracket span contains no `[` or `]` characters (and the whole
fence-stripped text is not strictly parseable), the extraction stage
selects exactly the span — the substring from the first `[` to the last
`]` — and the Normalizer returns the parse of the span alone at stage 2
with no debug writes. -/
theorem c4_extraction_amended (t : String) (pre span post : List Char) (v : Json)
    (hsplit : fenceStrip t.data = pre ++ span ++ post)
    (hpre : pre.all (fun c => c ≠ '[' && c ≠ ']') = true)
    (hpost : post.all (fun c => c ≠ '[' && c ≠ ']') = true)
    (hh : span.head? = some '[')
    (hl : span.getLast? = some ']')
    (hspan : jsonLoadsL span = some v)
    (hwhole : jsonLoadsL (fenceStrip t.data) = none) :
    analyzeResponse t = ⟨.ok v, 2, []⟩ ∧
    extractArr (fenceStrip t.data) = some span := by
  have hex : extractArr (fenceStrip t.data) = some span := by
    rw [hsplit]
    exact extractArr_of_span pre span post hpre hpost hh hl
  exact ⟨analyzeResponseL_eq2 t.data span v hwhole hex hspan, hex⟩

/-- Witness for `c4_extraction_amended`: prose around the span `[1, 2]`. -/
theorem c4_extraction_amended_witness :
    analyzeResponse "noise [1, 2] tail" =
      ⟨.ok (.arr [.num 1, .num 2]), 2, []⟩ ∧
    extractArr (fenceStrip "noise [1, 2] tail".data) = some "[1, 2]".data :=
  c4_extraction_amended "noise [1, 2] tail" "noise ".data "[1, 2]".data
    " tail".data (.arr [.num 1, .num 2]) (by decide) (by decide) (by decide)
    rfl rfl rfl rfl

-- ===================================================================
-- C1 machinery: character classes, whitespace-filtered view, chains
-- ===================================================================

theorem intTok_not_jsonWs {c : Char} (h : intTokChar c = true) :
    isJsonWs c = false := by
  rw [Bool.eq_false_iff]
  intro hw
  simp only [isJsonWs, Bool.or_eq_true, decide_eq_true_eq] at hw
  rcases hw with ((rfl | rfl) | rfl) | rfl <;> exact absurd h (by decide)

theorem intTok_not_reWs {c : Char} (h : intTokChar c = true) :
    isReWs c = false := by
  rw [Bool.eq_false_iff]
  intro hw
  simp only [isReWs, Bool.or_eq_true, decide_eq_true_eq] at hw
  rcases hw with ((((rfl | rfl) | rfl) | rfl) | rfl) | rfl <;>
    exact absurd h (by decide)

theorem intText_not_special {c : Char} (h : intTextChar c = true) :
    c ≠ '"' ∧ c ≠ '{' ∧ c ≠ '}' := by
  refine ⟨?_, ?_, ?_⟩ <;> (rintro rfl; exact absurd h (by decide))

theorem all_intText_of_jsonWs {l : List Char} (h : l.all isJsonWs = true) :
    l.all intTextChar = true := by
  rw [List.all_eq_true] at h ⊢
  intro x hx
  rw [intTextChar, Bool.or_eq_true]
  exact .inr (h x hx)

theorem all_intText_of_digits {l : List Char} (h : l.all isDig = true) :
    l.all intTextChar = true := by
  rw [List.all_eq_true] at h ⊢
  intro x hx
  rw [intTextChar, intTokChar]
  simp [h x hx]

theorem fw_append (a b : List Char) : fw (a ++ b) = fw a ++ fw b :=
  List.filter_append _ _

theorem fw_cons_ws {c : Char} (l : List Char) (h : isJsonWs c = true) :
    fw (c :: l) = fw l := by
  rw [fw, List.filter_cons, if_neg (by rw [h]; simp)]
  rfl

theorem fw_cons_tok {c : Char} (l : List Char) (h : isJsonWs c = false) :
    fw (c :: l) = c :: fw l := by
  rw [fw, List.filter_cons, if_pos (by rw [h]; rfl)]
  rfl

theorem fw_nil_of_ws {l : List Char} (h : l.all isJsonWs = true) :
    fw l = [] := by
  rw [fw, List.filter_eq_nil_iff]
  intro x hx
  rw [List.all_eq_true] at h
  rw [h x hx]
  simp

theorem fw_eq_self_of_tok {l : List Char} (h : l.all intTokChar = true) :
    fw l = l := by
  rw [fw, List.filter_eq_self]
  intro x hx
  rw [List.all_eq_true] at h
  rw [intTok_not_jsonWs (h x hx)]
  rfl

theorem chain'_of_all {R : Char → Char → Prop} {p : Char → Bool}
    (hp : ∀ x y, p x = true → p y = true → R x y) :
    ∀ {l : List Char}, l.all p = true → List.Chain' R l := by
  intro l
  induction l with
  | nil => intro _; exact List.chain'_nil
  | cons c t ih =>
    intro h
    rw [List.all_cons, Bool.and_eq_true] at h
    rw [List.chain'_cons']
    refine ⟨fun y hy => ?_, ih h.2⟩
    have hyt : y ∈ t := List.mem_of_mem_head? hy
    rw [List.all_eq_true] at *
    exact hp c y h.1 (h.2 y hyt)

theorem chain'_middle {R : Char → Char → Prop} :
    ∀ (a : List Char) {x y : Char} {b : List Char},
      List.Chain' R (a ++ x :: y :: b) → R x y := by
  intro a
  induction a with
  | nil => intro x y b h; exact (List.chain'_cons.mp h).1
  | cons c t ih =>
    intro x y b h
    rw [List.cons_append] at h
    exact ih h.tail

theorem gp_of_x {x y : Char} (h1 : x ≠ ']') (h2 : x ≠ ',') (h3 : x ≠ '[') :
    goodPair x y := by
  rintro (⟨hx, -⟩ | ⟨hx, -⟩ | ⟨hx, -⟩ | ⟨hx, -⟩)
  exacts [h1 hx, h2 hx, h2 hx, h3 hx]

theorem gp_of_y {x y : Char} (h1 : y ≠ '[') (h2 : y ≠ ']') (h3 : y ≠ ',') :
    goodPair x y := by
  rintro (⟨-, hy⟩ | ⟨-, hy⟩ | ⟨-, hy⟩ | ⟨-, hy⟩)
  exacts [h1 hy, h2 hy, h3 hy, h3 hy]

theorem digit_ne {c : Char} (hd : isDig c = true) :
    c ≠ ']' ∧ c ≠ ',' ∧ c ≠ '[' := by
  refine ⟨?_, ?_, ?_⟩ <;> (rintro rfl; exact absurd hd (by decide))

theorem gp_end_comma {x : Char} (h : endTok x) : goodPair x ',' := by
  rcases h with rfl | rfl | rfl | hd
  · intro hbad
    rcases hbad with ⟨-, hy⟩ | ⟨hx, -⟩ | ⟨hx, -⟩ | ⟨hx, -⟩ <;> simp_all
  · intro hbad
    rcases hbad with ⟨hx, -⟩ | ⟨hx, -⟩ | ⟨hx, -⟩ | ⟨hx, -⟩ <;> simp_all
  · intro hbad
    rcases hbad with ⟨hx, -⟩ | ⟨hx, -⟩ | ⟨hx, -⟩ | ⟨hx, -⟩ <;> simp_all
  · obtain ⟨n1, n2, n3⟩ := digit_ne hd
    exact gp_of_x n1 n2 n3

theorem gp_end_rb {x : Char} (h : endTok x) : goodPair x ']' := by
  rcases h with rfl | rfl | rfl | hd
  · intro hbad
    rcases hbad with ⟨-, hy⟩ | ⟨hx, -⟩ | ⟨-, hy⟩ | ⟨hx, -⟩ <;> simp_all
  · intro hbad
    rcases hbad with ⟨hx, -⟩ | ⟨hx, -⟩ | ⟨hx, -⟩ | ⟨hx, -⟩ <;> simp_all
  · intro hbad
    rcases hbad with ⟨hx, -⟩ | ⟨hx, -⟩ | ⟨hx, -⟩ | ⟨hx, -⟩ <;> simp_all
  · obtain ⟨n1, n2, n3⟩ := digit_ne hd
    exact gp_of_x n1 n2 n3

theorem startTok_ne {y : Char} (h : startTok y) :
    y ≠ '[' → y ≠ ']' ∧ y ≠ ',' := by
  intro _
  rcases h with rfl | rfl | rfl | rfl | rfl | hd
  · exact ⟨by decide, by decide⟩
  · exact ⟨by decide, by decide⟩
  · exact ⟨by decide, by decide⟩
  · exact ⟨by decide, by decide⟩
  · exact ⟨by decide, by decide⟩
  · exact ⟨(digit_ne hd).1, (digit_ne hd).2.1⟩

theorem gp_comma_start {y : Char} (h : startTok y) : goodPair ',' y := by
  rintro (⟨hx, -⟩ | ⟨-, hy⟩ | ⟨-, hy⟩ | ⟨hx, -⟩)
  · exact absurd hx (by decide)
  · subst hy
    rcases h with h | h | h | h | h | h <;> exact absurd h (by decide)
  · subst hy
    rcases h with h | h | h | h | h | h <;> exact absurd h (by decide)
  · exact absurd hx (by decide)

theorem gp_lb_start {y : Char} (h : startTok y) : goodPair '[' y := by
  rintro (⟨hx, -⟩ | ⟨hx, -⟩ | ⟨hx, -⟩ | ⟨-, hy⟩)
  · exact absurd hx (by decide)
  · exact absurd hx (by decide)
  · exact absurd hx (by decide)
  · subst hy
    rcases h with h | h | h | h | h | h <;> exact absurd h (by decide)

theorem gp_lb_rb : goodPair '[' ']' := by
  rintro (⟨hx, -⟩ | ⟨hx, -⟩ | ⟨hx, -⟩ | ⟨-, hy⟩)
  · exact absurd hx (by decide)
  · exact absurd hx (by decide)
  · exact absurd hx (by decide)
  · exact absurd hy (by decide)

theorem all_intTok_of_digits {l : List Char} (h : l.all isDig = true) :
    l.all intTokChar = true := by
  rw [List.all_eq_true] at h ⊢
  intro x hx
  rw [intTokChar]
  simp [h x hx]

theorem chain'_letters {l : List Char}
    (h : l.all (fun c => c ≠ ']' && c ≠ ',' && c ≠ '[') = true) :
    List.Chain' goodPair l :=
  chain'_of_all (fun x y hx _ => by
    rw [Bool.and_eq_true, Bool.and_eq_true] at hx
    exact gp_of_x (by simpa using hx.1.1) (by simpa using hx.1.2)
      (by simpa using hx.2)) h

theorem digits_letters {l : List Char} (h : l.all isDig = true) :
    l.all (fun c => c ≠ ']' && c ≠ ',' && c ≠ '[') = true := by
  rw [List.all_eq_true] at h ⊢
  intro x hx
  obtain ⟨d1, d2, d3⟩ := digit_ne (h x hx)
  simp [d1, d2, d3]

set_option maxHeartbeats 4000000 in
theorem parse_goodrun (fuel : Nat) :
    (∀ cs v rest, parseVal fuel cs = some (v, rest) → NoStrObj v →
      ∃ pre, cs = pre ++ rest ∧
        pre.all intTextChar = true ∧
        List.Chain' goodPair (fw pre) ∧
        (∃ h0 t0, fw pre = h0 :: t0 ∧ startTok h0) ∧
        (∃ e0, (fw pre).getLast? = some e0 ∧ endTok e0)) ∧
    (∀ cs vs rest, parseItems fuel cs = some (vs, rest) →
      (∀ v ∈ vs, NoStrObj v) →
      ∃ pre, cs = pre ++ ']' :: rest ∧
        (pre ++ [']']).all intTextChar = true ∧
        List.Chain' goodPair (fw (pre ++ [']'])) ∧
        (∃ h0 t0, fw (pre ++ [']']) = h0 :: t0 ∧ startTok h0)) := by
  induction fuel with
  | zero =>
    constructor
    · intro cs v rest h _; exact Option.noConfusion h
    · intro cs vs rest h _; exact Option.noConfusion h
  | succ f ih =>
    obtain ⟨ihv, ihi⟩ := ih
    constructor
    · intro cs v rest h hns
      rw [parseVal_succ] at h
      split at h
      · -- object branch: impossible for NoStrObj values
        split at h
        · simp only [Option.some.injEq, Prod.mk.injEq] at h
          rw [← h.1] at hns
          cases hns
        · split at h
          · simp only [Option.some.injEq, Prod.mk.injEq] at h
            rw [← h.1] at hns
            cases hns
          · exact Option.noConfusion h
      · -- array branch
        rename_i rest0
        obtain ⟨w, hw, hwall⟩ := dropWhile_suffix isJsonWs rest0
        split at h
        · -- empty array
          rename_i r2 heq
          simp only [Option.some.injEq, Prod.mk.injEq] at h
          have hfw : fw ('[' :: w ++ [']']) = ['[', ']'] := by
            rw [show ('[' :: w ++ [']'] : List Char) = '[' :: (w ++ [']']) from rfl,
              fw_cons_tok _ (by decide), fw_append, fw_nil_of_ws hwall]
            rfl
          refine ⟨'[' :: w ++ [']'], ?_, ?_, ?_, ?_, ?_⟩
          · rw [← h.2, hw, heq]; simp
          · rw [show ('[' :: w ++ [']'] : List Char) = '[' :: (w ++ [']']) from rfl,
              List.all_cons, List.all_append, Bool.and_eq_true, Bool.and_eq_true]
            exact ⟨by decide, all_intText_of_jsonWs hwall, by decide⟩
          · rw [hfw]
            exact List.chain'_cons.mpr ⟨gp_lb_rb, List.chain'_singleton _⟩
          · exact ⟨'[', [']'], hfw, Or.inl rfl⟩
          · exact ⟨']', by rw [hfw]; rfl, Or.inl rfl⟩
        · -- nonempty array via parseItems
          rename_i hne
          split at h
          · rename_i vs2 r2 hitems
            simp only [Option.some.injEq, Prod.mk.injEq] at h
            have hvs2 : ∀ x ∈ vs2, NoStrObj x := by
              rw [← h.1] at hns
              cases hns with
              | arr _ hall => exact hall
            obtain ⟨preI, hpreI, hallI, hchI, hheadI⟩ := ihi _ vs2 r2 hitems hvs2
            obtain ⟨h0, t0, hfwI, hst⟩ := hheadI
            refine ⟨'[' :: w ++ (preI ++ [']']), ?_, ?_, ?_, ?_, ?_⟩
            · rw [← h.2, hw]
              conv_lhs => rw [hpreI]
              simp
            · rw [show ('[' :: w ++ (preI ++ [']']) : List Char) =
                  '[' :: (w ++ (preI ++ [']'])) from rfl,
                List.all_cons, List.all_append, Bool.and_eq_true, Bool.and_eq_true]
              exact ⟨by decide, all_intText_of_jsonWs hwall, hallI⟩
            · rw [show ('[' :: w ++ (preI ++ [']']) : List Char) =
                  '[' :: (w ++ (preI ++ [']'])) from rfl,
                fw_cons_tok _ (by decide), fw_append, fw_nil_of_ws hwall,
                List.nil_append]
              rw [List.chain'_cons']
              refine ⟨fun y hy => ?_, hchI⟩
              rw [hfwI] at hy
              rw [List.head?_cons, Option.mem_def, Option.some.injEq] at hy
              rw [← hy]
              exact gp_lb_start hst
            · refine ⟨'[', fw (w ++ (preI ++ [']'])), ?_, Or.inl rfl⟩
              rw [show ('[' :: w ++ (preI ++ [']']) : List Char) =
                  '[' :: (w ++ (preI ++ [']'])) from rfl,
                fw_cons_tok _ (by decide)]
            · refine ⟨']', ?_, Or.inl rfl⟩
              rw [show ('[' :: w ++ (preI ++ [']']) : List Char) =
                  '[' :: (w ++ (preI ++ [']'])) from rfl,
                fw_cons_tok _ (by decide), fw_append, fw_nil_of_ws hwall,
                List.nil_append, fw_append,
                show fw [']'] = [']'] from rfl,
                show ('[' :: (fw preI ++ [']']) : List Char) =
                  ('[' :: fw preI) ++ [']'] from rfl,
                List.getLast?_concat]
          · exact Option.noConfusion h
      · -- string branch: impossible for NoStrObj values
        split at h
        · simp only [Option.some.injEq, Prod.mk.injEq] at h
          rw [← h.1] at hns
          cases hns
        · exact Option.noConfusion h
      · -- true
        simp only [Option.some.injEq, Prod.mk.injEq] at h
        refine ⟨['t', 'r', 'u', 'e'], by rw [← h.2]; rfl, by decide,
          chain'_letters (by decide), ⟨'t', ['r', 'u', 'e'], rfl, ?_⟩,
          ⟨'e', rfl, ?_⟩⟩
        · exact Or.inr (Or.inr (Or.inl rfl))
        · exact Or.inr (Or.inl rfl)
      · -- false
        simp only [Option.some.injEq, Prod.mk.injEq] at h
        refine ⟨['f', 'a', 'l', 's', 'e'], by rw [← h.2]; rfl, by decide,
          chain'_letters (by decide), ⟨'f', ['a', 'l', 's', 'e'], rfl, ?_⟩,
          ⟨'e', rfl, ?_⟩⟩
        · exact Or.inr (Or.inr (Or.inr (Or.inl rfl)))
        · exact Or.inr (Or.inl rfl)
      · -- null
        simp only [Option.some.injEq, Prod.mk.injEq] at h
        refine ⟨['n', 'u', 'l', 'l'], by rw [← h.2]; rfl, by decide,
          chain'_letters (by decide), ⟨'n', ['u', 'l', 'l'], rfl, ?_⟩,
          ⟨'l', rfl, ?_⟩⟩
        · exact Or.inr (Or.inr (Or.inr (Or.inr (Or.inl rfl))))
        · exact Or.inr (Or.inr (Or.inl rfl))
      · -- negative number
        rename_i rest0
        split at h
        · rename_i n2 r2 hn
          simp only [Option.some.injEq, Prod.mk.injEq] at h
          obtain ⟨ds, hds, hdne, hdall⟩ := parseNat_suffix rest0 n2 r2 hn
          rcases List.eq_nil_or_concat ds with rfl | ⟨ds0, dl, hcc⟩
          · exact absurd rfl hdne
          · rw [List.concat_eq_append] at hcc
            subst hcc
            have hdl : isDig dl = true := by
              rw [List.all_eq_true] at hdall
              exact hdall dl (List.mem_append_right ds0 (List.mem_singleton.mpr rfl))
            have halltok : ('-' :: (ds0 ++ [dl])).all intTokChar = true := by
              rw [List.all_cons, Bool.and_eq_true]
              exact ⟨by decide, all_intTok_of_digits hdall⟩
            refine ⟨'-' :: (ds0 ++ [dl]), by rw [← h.2, hds, List.cons_append],
              ?_, ?_, ?_, ?_⟩
            · rw [List.all_cons, Bool.and_eq_true]
              exact ⟨by decide, all_intText_of_digits hdall⟩
            · rw [fw_eq_self_of_tok halltok]
              apply chain'_letters
              rw [List.all_cons, Bool.and_eq_true]
              exact ⟨by decide, digits_letters hdall⟩
            · refine ⟨'-', ds0 ++ [dl], ?_, Or.inr (Or.inl rfl)⟩
              rw [fw_eq_self_of_tok halltok]
            · refine ⟨dl, ?_, Or.inr (Or.inr (Or.inr hdl))⟩
              rw [fw_eq_self_of_tok halltok,
                show ('-' :: (ds0 ++ [dl]) : List Char) = ('-' :: ds0) ++ [dl] from rfl,
                List.getLast?_concat]
        · exact Option.noConfusion h
      · -- nonnegative number
        split at h
        · rename_i n2 r2 hn
          simp only [Option.some.injEq, Prod.mk.injEq] at h
          obtain ⟨ds, hds, hdne, hdall⟩ := parseNat_suffix cs n2 r2 hn
          rcases List.eq_nil_or_concat ds with rfl | ⟨ds0, dl, hcc⟩
          · exact absurd rfl hdne
          · rw [List.concat_eq_append] at hcc
            subst hcc
            have hdl : isDig dl = true := by
              rw [List.all_eq_true] at hdall
              exact hdall dl (List.mem_append_right ds0 (List.mem_singleton.mpr rfl))
            have hd0 : isDig (ds0 ++ [dl]).head! = true := by
              rw [List.all_eq_true] at hdall
              cases hd : (ds0 ++ [dl]) with
              | nil => simp at hd
              | cons a t =>
                rw [List.head!]
                exact hdall a (by rw [hd]; exact List.mem_cons_self a t)
            have halltok : ((ds0 ++ [dl]) : List Char).all intTokChar = true :=
              all_intTok_of_digits hdall
            refine ⟨ds0 ++ [dl], by rw [← h.2, hds], all_intText_of_digits hdall,
              ?_, ?_, ?_⟩
            · rw [fw_eq_self_of_tok halltok]
              exact chain'_letters (digits_letters hdall)
            · rw [fw_eq_self_of_tok halltok]
              cases hcase : (ds0 ++ [dl] : List Char) with
              | nil => simp at hcase
              | cons a t =>
                refine ⟨a, t, rfl, ?_⟩
                right; right; right; right; right
                rw [List.all_eq_true] at hdall
                exact hdall a (by rw [hcase]; exact List.mem_cons_self a t)
            · refine ⟨dl, ?_, Or.inr (Or.inr (Or.inr hdl))⟩
              rw [fw_eq_self_of_tok halltok, List.getLast?_concat]
        · exact Option.noConfusion h
    · intro cs vs rest h hvs
      rw [parseItems_succ] at h
      split at h
      · exact Option.noConfusion h
      · rename_i v1 r1 hv
        obtain ⟨w, hw, hwall⟩ := dropWhile_suffix isJsonWs r1
        split at h
        · -- comma: more items
          rename_i r2 heq
          split at h
          · rename_i vs2 r3 hitems
            simp only [Option.some.injEq, Prod.mk.injEq] at h
            have hv1 : NoStrObj v1 := by
              apply hvs
              rw [← h.1]
              exact List.mem_cons_self v1 vs2
            have hvs2 : ∀ x ∈ vs2, NoStrObj x := by
              intro x hx
              apply hvs
              rw [← h.1]
              exact List.mem_cons_of_mem v1 hx
            obtain ⟨p1, hp1, hall1, hch1, ⟨h01, t01, hfw1, hst1⟩,
              ⟨e01, hlast1, hend1⟩⟩ := ihv cs v1 r1 hv hv1
            obtain ⟨w2, hw2, hw2all⟩ := dropWhile_suffix isJsonWs r2
            obtain ⟨pI, hpI, hallI, hchI, ⟨h0I, t0I, hfwI, hstI⟩⟩ :=
              ihi _ vs2 r3 hitems hvs2
            refine ⟨p1 ++ w ++ ',' :: w2 ++ pI, ?_, ?_, ?_, ?_⟩
            · rw [← h.2, hp1, hw, heq]
              conv_lhs => rw [hw2, hpI]
              simp
            · rw [show ((p1 ++ w ++ ',' :: w2 ++ pI) ++ [']'] : List Char) =
                  p1 ++ (w ++ (',' :: (w2 ++ (pI ++ [']'])))) from by simp,
                List.all_append, List.all_append, List.all_cons, List.all_append,
                Bool.and_eq_true, Bool.and_eq_true, Bool.and_eq_true,
                Bool.and_eq_true]
              exact ⟨hall1, all_intText_of_jsonWs hwall, by decide,
                all_intText_of_jsonWs hw2all, hallI⟩
            · rw [show ((p1 ++ w ++ ',' :: w2 ++ pI) ++ [']'] : List Char) =
                  p1 ++ (w ++ (',' :: (w2 ++ (pI ++ [']'])))) from by simp,
                fw_append, fw_append, fw_nil_of_ws hwall, List.nil_append,
                fw_cons_tok _ (by decide), fw_append, fw_nil_of_ws hw2all,
                List.nil_append]
              rw [List.chain'_append]
              refine ⟨hch1, ?_, ?_⟩
              · rw [List.chain'_cons']
                refine ⟨fun y hy => ?_, hchI⟩
                rw [hfwI, List.head?_cons, Option.mem_def, Option.some.injEq] at hy
                rw [← hy]
                exact gp_comma_start hstI
              · intro x hx y hy
                rw [Option.mem_def] at hx hy
                rw [hlast1, Option.some.injEq] at hx
                rw [List.head?_cons, Option.some.injEq] at hy
                rw [← hx, ← hy]
                exact gp_end_comma hend1
            · refine ⟨h01, t01 ++ ',' :: fw (w2 ++ (pI ++ [']'])), ?_, hst1⟩
              rw [show ((p1 ++ w ++ ',' :: w2 ++ pI) ++ [']'] : List Char) =
                  p1 ++ (w ++ (',' :: (w2 ++ (pI ++ [']'])))) from by simp,
                fw_append, fw_append, fw_nil_of_ws hwall, List.nil_append,
                fw_cons_tok _ (by decide), hfw1]
              simp
          · exact Option.noConfusion h
        · -- closing bracket
          rename_i r2 heq
          simp only [Option.some.injEq, Prod.mk.injEq] at h
          have hv1 : NoStrObj v1 := by
            apply hvs
            rw [← h.1]
            exact List.mem_cons_self v1 []
          obtain ⟨p1, hp1, hall1, hch1, ⟨h01, t01, hfw1, hst1⟩,
            ⟨e01, hlast1, hend1⟩⟩ := ihv cs v1 r1 hv hv1
          refine ⟨p1 ++ w, ?_, ?_, ?_, ?_⟩
          · rw [← h.2, hp1, hw, heq]
            simp
          · rw [List.append_assoc, List.all_append, List.all_append,
              Bool.and_eq_true, Bool.and_eq_true]
            exact ⟨hall1, all_intText_of_jsonWs hwall, by decide⟩
          · rw [List.append_assoc, fw_append, fw_append, fw_nil_of_ws hwall,
              List.nil_append]
            rw [List.chain'_append]
            refine ⟨hch1, List.chain'_singleton _, ?_⟩
            intro x hx y hy
            rw [Option.mem_def] at hx hy
            rw [hlast1, Option.some.injEq] at hx
            rw [show (fw [']'] : List Char) = [']'] from rfl,
              List.head?_cons, Option.some.injEq] at hy
            rw [← hx, ← hy]
            exact gp_end_rb hend1
          · refine ⟨h01, t01 ++ [']'], ?_, hst1⟩
            rw [List.append_assoc, fw_append, fw_append, fw_nil_of_ws hwall,
              List.nil_append, hfw1,
              show (fw [']'] : List Char) = [']'] from rfl]
            simp
        · exact Option.noConfusion h

theorem rewriteAll_id (rule : List Char → Option (List Char × List Char)) :
    ∀ (f : Nat) (cs : List Char),
      (∀ pre suf, cs = pre ++ suf → rule suf = none) →
      rewriteAll rule f cs = cs := by
  intro f
  induction f with
  | zero => intro cs _; cases cs <;> rfl
  | succ g ih =>
    intro cs hnone
    cases cs with
    | nil => rfl
    | cons c t =>
      have h0 : rule (c :: t) = none := hnone [] (c :: t) rfl
      have ht : rewriteAll rule g t = t :=
        ih t (fun pre suf hp => hnone (c :: pre) suf (by rw [hp]; rfl))
      show (match rule (c :: t) with
        | some (rep, rest) => rep ++ rewriteAll rule g rest
        | none => c :: rewriteAll rule g t) = c :: t
      simp only [h0, ht]

theorem applyRule_id (rule : List Char → Option (List Char × List Char))
    (cs : List Char)
    (h : ∀ pre suf, cs = pre ++ suf → rule suf = none) :
    applyRule rule cs = cs :=
  rewriteAll_id rule cs.length cs h

theorem litAt_suffix {cs lit rest : List Char}
    (h : litAt cs = some (lit, rest)) : cs = lit ++ rest := by
  unfold litAt at h
  split at h <;>
    first
      | exact Option.noConfusion h
      | (simp only [Option.some.injEq, Prod.mk.injEq] at h
         rw [← h.1, ← h.2]
         rfl)

theorem head_dw_mem (T q cs2 : List Char) {r : List Char} {b : Char}
    (hT : T = q ++ cs2) (hdw : cs2.dropWhile isReWs = b :: r) : b ∈ T := by
  obtain ⟨w, hw, -⟩ := dropWhile_suffix isReWs cs2
  have hb : b ∈ cs2 := by
    rw [hw, hdw]
    exact List.mem_append_right w (List.mem_cons_self b r)
  rw [hT]
  exact List.mem_append_right q hb

theorem no_bad_adj (T pre cs2 : List Char) (x y : Char) {r : List Char}
    (hall : T.all intTextChar = true) (hch : List.Chain' goodPair (fw T))
    (hT : T = pre ++ x :: cs2) (hdw : cs2.dropWhile isReWs = y :: r)
    (hxws : isJsonWs x = false) (hyws : isJsonWs y = false)
    (hbad : ¬ goodPair x y) : False := by
  have hsplit : cs2 = cs2.takeWhile isReWs ++ (y :: r) := by
    rw [← hdw, List.takeWhile_append_dropWhile]
  have hwsall : (cs2.takeWhile isReWs).all isJsonWs = true := by
    rw [List.all_eq_true]
    intro c hc
    have hcre : isReWs c = true := List.mem_takeWhile_imp hc
    have hcT : c ∈ T := by
      rw [hT]
      refine List.mem_append_right pre (List.mem_cons_of_mem x ?_)
      rw [hsplit]
      exact List.mem_append_left _ hc
    rw [List.all_eq_true] at hall
    have htext := hall c hcT
    rw [intTextChar, Bool.or_eq_true] at htext
    rcases htext with htok | hws
    · rw [intTok_not_reWs htok] at hcre
      exact Bool.noConfusion hcre
    · exact hws
  have hfwT : fw T = fw pre ++ x :: y :: fw r := by
    rw [hT, fw_append]
    rw [hsplit, fw_cons_tok _ hxws, fw_append, fw_nil_of_ws hwsall,
      List.nil_append, fw_cons_tok _ hyws]
  rw [hfwT] at hch
  exact hbad (chain'_middle (fw pre) hch)

theorem mRuleA_some {suf : List Char} {p : List Char × List Char}
    (h : mRuleA suf = some p) : ∃ cs2, suf = '}' :: cs2 := by
  unfold mRuleA at h
  split at h
  · rename_i cs
    exact ⟨cs, rfl⟩
  · exact Option.noConfusion h

theorem mRuleB_some {suf : List Char} {p : List Char × List Char}
    (h : mRuleB suf = some p) :
    ∃ cs2 r, suf = ']' :: cs2 ∧ cs2.dropWhile isReWs = '[' :: r := by
  unfold mRuleB at h
  split at h
  · rename_i cs
    split at h
    · rename_i r heq
      exact ⟨cs, r, rfl, heq⟩
    · exact Option.noConfusion h
  · exact Option.noConfusion h

theorem mRuleC_some {suf : List Char} {p : List Char × List Char}
    (h : mRuleC suf = some p) : ∃ cs2, suf = '}' :: cs2 := by
  unfold mRuleC at h
  split at h
  · rename_i cs
    exact ⟨cs, rfl⟩
  · exact Option.noConfusion h

theorem mRuleD_some {suf : List Char} {p : List Char × List Char}
    (h : mRuleD suf = some p) :
    ∃ cs2 c r, suf = ']' :: cs2 ∧ cs2.dropWhile isReWs = '"' :: c :: r := by
  unfold mRuleD at h
  split at h
  · rename_i cs
    split at h
    · rename_i c r heq
      exact ⟨cs, c, r, rfl, heq⟩
    · exact Option.noConfusion h
  · exact Option.noConfusion h

theorem mRuleE_some {suf : List Char} {p : List Char × List Char}
    (h : mRuleE suf = some p) : ∃ cs2, suf = '"' :: cs2 := by
  unfold mRuleE at h
  split at h
  · rename_i cs
    exact ⟨cs, rfl⟩
  · exact Option.noConfusion h

theorem mRuleF_some {suf : List Char} {p : List Char × List Char}
    (h : mRuleF suf = some p) : ∃ cs2, suf = '"' :: cs2 := by
  unfold mRuleF at h
  split at h
  · rename_i c cs
    exact ⟨c :: cs, rfl⟩
  · exact Option.noConfusion h

theorem mRuleG_some {suf : List Char} {p : List Char × List Char}
    (h : mRuleG suf = some p) :
    ∃ d cs2 c r, suf = d :: cs2 ∧ cs2.dropWhile isReWs = '"' :: c :: r := by
  unfold mRuleG at h
  split at h
  · rename_i d cs
    split at h
    · split at h
      · rename_i c r heq
        exact ⟨d, cs, c, r, rfl, heq⟩
      · exact Option.noConfusion h
    · exact Option.noConfusion h
  · exact Option.noConfusion h

theorem mRuleH_some {suf : List Char} {p : List Char × List Char}
    (h : mRuleH suf = some p) :
    ∃ d cs2 r, suf = d :: cs2 ∧ cs2.dropWhile isReWs = '{' :: r := by
  unfold mRuleH at h
  split at h
  · rename_i d cs
    split at h
    · split at h
      · rename_i r heq
        exact ⟨d, cs, r, rfl, heq⟩
      · exact Option.noConfusion h
    · exact Option.noConfusion h
  · exact Option.noConfusion h

theorem mRuleI_some {suf : List Char} {p : List Char × List Char}
    (h : mRuleI suf = some p) :
    ∃ lit rest r, litAt suf = some (lit, rest) ∧
      rest.dropWhile isReWs = '"' :: r := by
  unfold mRuleI at h
  split at h
  · rename_i lit rest hlit
    split at h
    · rename_i r heq
      exact ⟨lit, rest, r, hlit, heq⟩
    · exact Option.noConfusion h
  · exact Option.noConfusion h

theorem mRuleJ_some {suf : List Char} {p : List Char × List Char}
    (h : mRuleJ suf = some p) :
    ∃ lit rest r, litAt suf = some (lit, rest) ∧
      rest.dropWhile isReWs = '{' :: r := by
  unfold mRuleJ at h
  split at h
  · rename_i lit rest hlit
    split at h
    · rename_i r heq
      exact ⟨lit, rest, r, hlit, heq⟩
    · exact Option.noConfusion h
  · exact Option.noConfusion h

theorem mRuleK1_some {suf : List Char} {p : List Char × List Char}
    (h : mRuleK1 suf = some p) :
    ∃ cs2 r, suf = ',' :: cs2 ∧ cs2.dropWhile isReWs = ']' :: r := by
  unfold mRuleK1 at h
  split at h
  · rename_i cs
    split at h
    · rename_i r heq
      exact ⟨cs, r, rfl, heq⟩
    · exact Option.noConfusion h
  · exact Option.noConfusion h

theorem mRuleK2_some {suf : List Char} {p : List Char × List Char}
    (h : mRuleK2 suf = some p) :
    ∃ cs2 r, suf = ',' :: cs2 ∧ cs2.dropWhile isReWs = '}' :: r := by
  unfold mRuleK2 at h
  split at h
  · rename_i cs
    split at h
    · rename_i r heq
      exact ⟨cs, r, rfl, heq⟩
    · exact Option.noConfusion h
  · exact Option.noConfusion h

theorem mRuleL_some {suf : List Char} {p : List Char × List Char}
    (h : mRuleL suf = some p) :
    ∃ cs2 r, suf = ',' :: cs2 ∧ cs2.dropWhile isReWs = ',' :: r := by
  unfold mRuleL at h
  split at h
  · rename_i cs
    split at h
    · rename_i r heq
      exact ⟨cs, r, rfl, heq⟩
    · exact Option.noConfusion h
  · exact Option.noConfusion h

theorem mRuleM1_some {suf : List Char} {p : List Char × List Char}
    (h : mRuleM1 suf = some p) : ∃ cs2, suf = '{' :: cs2 := by
  unfold mRuleM1 at h
  split at h
  · rename_i cs
    exact ⟨cs, rfl⟩
  · exact Option.noConfusion h

theorem mRuleM2_some {suf : List Char} {p : List Char × List Char}
    (h : mRuleM2 suf = some p) :
    ∃ cs2 r, suf = '[' :: cs2 ∧ cs2.dropWhile isReWs = ',' :: r := by
  unfold mRuleM2 at h
  split at h
  · rename_i cs
    split at h
    · rename_i r heq
      exact ⟨cs, r, rfl, heq⟩
    · exact Option.noConfusion h
  · exact Option.noConfusion h

theorem mRuleA_nofire {T : List Char} (hall : T.all intTextChar = true) :
    ∀ pre suf, T = pre ++ suf → mRuleA suf = none := by
  intro pre suf hT
  cases hA : mRuleA suf with
  | none => rfl
  | some p =>
    obtain ⟨cs2, rfl⟩ := mRuleA_some hA
    have hm : '}' ∈ T := by
      rw [hT]
      exact List.mem_append_right pre (List.mem_cons_self _ _)
    rw [List.all_eq_true] at hall
    exact absurd rfl (intText_not_special (hall _ hm)).2.2

theorem mRuleB_nofire {T : List Char} (hall : T.all intTextChar = true)
    (hch : List.Chain' goodPair (fw T)) :
    ∀ pre suf, T = pre ++ suf → mRuleB suf = none := by
  intro pre suf hT
  cases hA : mRuleB suf with
  | none => rfl
  | some p =>
    obtain ⟨cs2, r, rfl, hdw⟩ := mRuleB_some hA
    exact (no_bad_adj T pre cs2 ']' '[' hall hch hT hdw (by decide) (by decide)
      (fun hg => hg (Or.inl ⟨rfl, rfl⟩))).elim

theorem mRuleC_nofire {T : List Char} (hall : T.all intTextChar = true) :
    ∀ pre suf, T = pre ++ suf → mRuleC suf = none := by
  intro pre suf hT
  cases hA : mRuleC suf with
  | none => rfl
  | some p =>
    obtain ⟨cs2, rfl⟩ := mRuleC_some hA
    have hm : '}' ∈ T := by
      rw [hT]
      exact List.mem_append_right pre (List.mem_cons_self _ _)
    rw [List.all_eq_true] at hall
    exact absurd rfl (intText_not_special (hall _ hm)).2.2

theorem mRuleD_nofire {T : List Char} (hall : T.all intTextChar = true) :
    ∀ pre suf, T = pre ++ suf → mRuleD suf = none := by
  intro pre suf hT
  cases hA : mRuleD suf with
  | none => rfl
  | some p =>
    obtain ⟨cs2, c, r, rfl, hdw⟩ := mRuleD_some hA
    have hm : '"' ∈ T :=
      head_dw_mem T (pre ++ [']']) cs2 (by rw [hT]; simp) hdw
    rw [List.all_eq_true] at hall
    exact absurd rfl (intText_not_special (hall _ hm)).1

theorem mRuleE_nofire {T : List Char} (hall : T.all intTextChar = true) :
    ∀ pre suf, T = pre ++ suf → mRuleE suf = none := by
  intro pre suf hT
  cases hA : mRuleE suf with
  | none => rfl
  | some p =>
    obtain ⟨cs2, rfl⟩ := mRuleE_some hA
    have hm : '"' ∈ T := by
      rw [hT]
      exact List.mem_append_right pre (List.mem_cons_self _ _)
    rw [List.all_eq_true] at hall
    exact absurd rfl (intText_not_special (hall _ hm)).1

theorem mRuleF_nofire {T : List Char} (hall : T.all intTextChar = true) :
    ∀ pre suf, T = pre ++ suf → mRuleF suf = none := by
  intro pre suf hT
  cases hA : mRuleF suf with
  | none => rfl
  | some p =>
    obtain ⟨cs2, rfl⟩ := mRuleF_some hA
    have hm : '"' ∈ T := by
      rw [hT]
      exact List.mem_append_right pre (List.mem_cons_self _ _)
    rw [List.all_eq_true] at hall
    exact absurd rfl (intText_not_special (hall _ hm)).1

theorem mRuleG_nofire {T : List Char} (hall : T.all intTextChar = true) :
    ∀ pre suf, T = pre ++ suf → mRuleG suf = none := by
  intro pre suf hT
  cases hA : mRuleG suf with
  | none => rfl
  | some p =>
    obtain ⟨d, cs2, c, r, rfl, hdw⟩ := mRuleG_some hA
    have hm : '"' ∈ T :=
      head_dw_mem T (pre ++ [d]) cs2 (by rw [hT]; simp) hdw
    rw [List.all_eq_true] at hall
    exact absurd rfl (intText_not_special (hall _ hm)).1

theorem mRuleH_nofire {T : List Char} (hall : T.all intTextChar = true) :
    ∀ pre suf, T = pre ++ suf → mRuleH suf = none := by
  intro pre suf hT
  cases hA : mRuleH suf with
  | none => rfl
  | some p =>
    obtain ⟨d, cs2, r, rfl, hdw⟩ := mRuleH_some hA
    have hm : '{' ∈ T :=
      head_dw_mem T (pre ++ [d]) cs2 (by rw [hT]; simp) hdw
    rw [List.all_eq_true] at hall
    exact absurd rfl (intText_not_special (hall _ hm)).2.1

theorem mRuleI_nofire {T : List Char} (hall : T.all intTextChar = true) :
    ∀ pre suf, T = pre ++ suf → mRuleI suf = none := by
  intro pre suf hT
  cases hA : mRuleI suf with
  | none => rfl
  | some p =>
    obtain ⟨lit, rest, r, hlit, hdw⟩ := mRuleI_some hA
    have hm : '"' ∈ T :=
      head_dw_mem T (pre ++ lit) rest
        (by rw [hT, litAt_suffix hlit, List.append_assoc]) hdw
    rw [List.all_eq_true] at hall
    exact absurd rfl (intText_not_special (hall _ hm)).1

theorem mRuleJ_nofire {T : List Char} (hall : T.all intTextChar = true) :
    ∀ pre suf, T = pre ++ suf → mRuleJ suf = none := by
  intro pre suf hT
  cases hA : mRuleJ suf with
  | none => rfl
  | some p =>
    obtain ⟨lit, rest, r, hlit, hdw⟩ := mRuleJ_some hA
    have hm : '{' ∈ T :=
      head_dw_mem T (pre ++ lit) rest
        (by rw [hT, litAt_suffix hlit, List.append_assoc]) hdw
    rw [List.all_eq_true] at hall
    exact absurd rfl (intText_not_special (hall _ hm)).2.1

theorem mRuleK1_nofire {T : List Char} (hall : T.all intTextChar = true)
    (hch : List.Chain' goodPair (fw T)) :
    ∀ pre suf, T = pre ++ suf → mRuleK1 suf = none := by
  intro pre suf hT
  cases hA : mRuleK1 suf with
  | none => rfl
  | some p =>
    obtain ⟨cs2, r, rfl, hdw⟩ := mRuleK1_some hA
    exact (no_bad_adj T pre cs2 ',' ']' hall hch hT hdw (by decide) (by decide)
      (fun hg => hg (Or.inr (Or.inl ⟨rfl, rfl⟩)))).elim

theorem mRuleK2_nofire {T : List Char} (hall : T.all intTextChar = true) :
    ∀ pre suf, T = pre ++ suf → mRuleK2 suf = none := by
  intro pre suf hT
  cases hA : mRuleK2 suf with
  | none => rfl
  | some p =>
    obtain ⟨cs2, r, rfl, hdw⟩ := mRuleK2_some hA
    have hm : '}' ∈ T :=
      head_dw_mem T (pre ++ [',']) cs2 (by rw [hT]; simp) hdw
    rw [List.all_eq_true] at hall
    exact absurd rfl (intText_not_special (hall _ hm)).2.2

theorem mRuleL_nofire {T : List Char} (hall : T.all intTextChar = true)
    (hch : List.Chain' goodPair (fw T)) :
    ∀ pre suf, T = pre ++ suf → mRuleL suf = none := by
  intro pre suf hT
  cases hA : mRuleL suf with
  | none => rfl
  | some p =>
    obtain ⟨cs2, r, rfl, hdw⟩ := mRuleL_some hA
    exact (no_bad_adj T pre cs2 ',' ',' hall hch hT hdw (by decide) (by decide)
      (fun hg => hg (Or.inr (Or.inr (Or.inl ⟨rfl, rfl⟩))))).elim

theorem mRuleM1_nofire {T : List Char} (hall : T.all intTextChar = true) :
    ∀ pre suf, T = pre ++ suf → mRuleM1 suf = none := by
  intro pre suf hT
  cases hA : mRuleM1 suf with
  | none => rfl
  | some p =>
    obtain ⟨cs2, rfl⟩ := mRuleM1_some hA
    have hm : '{' ∈ T := by
      rw [hT]
      exact List.mem_append_right pre (List.mem_cons_self _ _)
    rw [List.all_eq_true] at hall
    exact absurd rfl (intText_not_special (hall _ hm)).2.1

theorem mRuleM2_nofire {T : List Char} (hall : T.all intTextChar = true)
    (hch : List.Chain' goodPair (fw T)) :
    ∀ pre suf, T = pre ++ suf → mRuleM2 suf = none := by
  intro pre suf hT
  cases hA : mRuleM2 suf with
  | none => rfl
  | some p =>
    obtain ⟨cs2, r, rfl, hdw⟩ := mRuleM2_some hA
    exact (no_bad_adj T pre cs2 '[' ',' hall hch hT hdw (by decide) (by decide)
      (fun hg => hg (Or.inr (Or.inr (Or.inr ⟨rfl, rfl⟩))))).elim

theorem jsonLoads_mk (l : List Char) : jsonLoads ⟨l⟩ = jsonLoadsL l := rfl

theorem fixJsonL_id_of_goodrun (cs : List Char) (vs : List Json)
    (h : jsonLoadsL cs = some (.arr vs)) (hns : NoStrObj (.arr vs)) :
    fixJsonL cs = jsonTrim cs := by
  have hpv := jsonLoadsL_inv cs _ h
  obtain ⟨pre, hpre, hall, hch, -, -⟩ :=
    (parse_goodrun ((jsonTrim cs).length + 2)).1 (jsonTrim cs) (.arr vs) [] hpv hns
  rw [List.append_nil] at hpre
  rw [← hpre] at hall hch
  have hstrip : pyStrip cs = jsonTrim cs := (valid_arr_strip cs vs h).2.2.2.2
  obtain ⟨mid, hmid⟩ := parseVal_arr_shape _ _ _ _ hpv
  have h0 : (pyStrip cs).dropWhile (· = '﻿') = jsonTrim cs := by
    rw [hstrip]
    conv_lhs => rw [hmid, List.cons_append]
    rw [@dropWhile_cons_neg (fun x => decide (x = '﻿')) '[' (mid ++ [']'])
      (by decide)]
    exact hmid.symm
  show applyRule mRuleM2 (applyRule mRuleM1 (applyRule mRuleL (applyRule mRuleK2
    (applyRule mRuleK1 (applyRule mRuleJ (applyRule mRuleI (applyRule mRuleH
    (applyRule mRuleG (applyRule mRuleF (applyRule mRuleE (applyRule mRuleD
    (applyRule mRuleC (applyRule mRuleB (applyRule mRuleA
    ((pyStrip cs).dropWhile (· = '﻿')))))))))))))))) = jsonTrim cs
  rw [h0,
    applyRule_id _ _ (mRuleA_nofire hall),
    applyRule_id _ _ (mRuleB_nofire hall hch),
    applyRule_id _ _ (mRuleC_nofire hall),
    applyRule_id _ _ (mRuleD_nofire hall),
    applyRule_id _ _ (mRuleE_nofire hall),
    applyRule_id _ _ (mRuleF_nofire hall),
    applyRule_id _ _ (mRuleG_nofire hall),
    applyRule_id _ _ (mRuleH_nofire hall),
    applyRule_id _ _ (mRuleI_nofire hall),
    applyRule_id _ _ (mRuleJ_nofire hall),
    applyRule_id _ _ (mRuleK1_nofire hall hch),
    applyRule_id _ _ (mRuleK2_nofire hall),
    applyRule_id _ _ (mRuleL_nofire hall hch),
    applyRule_id _ _ (mRuleM1_nofire hall),
    applyRule_id _ _ (mRuleM2_nofire hall hch)]

/-- C1 (amended): on a strictly-valid JSON array text whose denoted value
contains no string literals and no objects, the full repair-rule chain
`_fix_json` reduces to whitespace trimming — the repaired text equals the
JSON-trimmed original, and parsing the repaired text yields the identical
semantic value.  (The unrestricted original claim is refuted by the
counterexample: rule (a) rewrites `}{` inside a string literal of an
already-valid text, changing the parsed value.) -/
theorem c1_repair_idempotent_amended (t : String) (vs : List Json)
    (h : jsonLoads t = some (.arr vs)) (hns : NoStrObj (.arr vs)) :
    fixJson t = ⟨jsonTrim t.data⟩ ∧
    jsonLoads (fixJson t) = some (.arr vs) := by
  have hfix : fixJsonL t.data = jsonTrim t.data :=
    fixJsonL_id_of_goodrun t.data vs h hns
  have h1 : fixJson t = ⟨jsonTrim t.data⟩ := by
    show String.mk (fixJsonL t.data) = String.mk (jsonTrim t.data)
    rw [hfix]
  refine ⟨h1, ?_⟩
  rw [h1, jsonLoads_mk]
  exact (valid_arr_strip t.data vs h).1

/-- C1 (amended), witness: the whitespace-bearing valid array text
`[1, [2, true], null]` (no strings, no objects) passes the repair chain
unchanged and reparses to the same value. -/
theorem c1_repair_idempotent_amended_witness :
    jsonLoads "[1, [2, true], null]" =
      some (.arr [.num 1, .arr [.num 2, .bool true], .null]) ∧
    (fixJson "[1, [2, true], null]" = ⟨jsonTrim "[1, [2, true], null]".data⟩ ∧
     jsonLoads (fixJson "[1, [2, true], null]") =
       some (.arr [.num 1, .arr [.num 2, .bool true], .null])) :=
  ⟨rfl, c1_repair_idempotent_amended "[1, [2, true], null]"
    [.num 1, .arr [.num 2, .bool true], .null] rfl
    (NoStrObj.arr _ (by
      intro x hx
      simp only [List.mem_cons, List.not_mem_nil, or_false] at hx
      rcases hx with rfl | rfl | rfl
      · exact .num 1
      · exact NoStrObj.arr _ (by
          intro y hy
          simp only [List.mem_cons, List.not_mem_nil, or_false] at hy
          rcases hy with rfl | rfl
          · exact .num 2
          · exact .bool true)
      · exact .null))⟩
